import Mathlib

/-!
# Photographer scheduler: the gap finder of `main.go`

A shallow embedding of `timeDiffMinutes`, `addAvailableTimeSlot` and
`availableTimeSlotsForBooking` together with the parts of Go's `time` package
they rest on, followed by theorems about them.

Conventions.
* A `time.Time` is an `Int`, the count of nanoseconds since the zero Time
  (`0001-01-01T00:00:00Z`); the roster is read from JSON, so no instant carries a
  monotonic clock reading and `After`, `Before`, `Sub`, `Add` act on the instant only.
  The functions on instants live in the namespace `Time`.
* A `time.Duration` is an `Int`, an `int64` count of nanoseconds; `Sub` saturates, the
  product `time.Minute * time.Duration(n)` wraps modulo `2^64`. The functions on durations
  live in the namespace `Duration`.
* Go's `int` is taken to be 64 bits wide.
* `Duration.Minutes` computes in `float64`; the two roundings it performs
  (a division and an addition) are reproduced exactly in integer arithmetic.
-/

set_option linter.dupNamespace false

namespace PhotoSched

/-! ## Go `time` package -/

/-- Value of `var t time.Time` without initialiser. -/
def zeroTime : Int := 0

/-- Largest `time.Duration`, `1<<63 - 1`. -/
def maxDuration : Int := 9223372036854775807

/-- Smallest `time.Duration`, `-1 << 63`. -/
def minDuration : Int := -9223372036854775808

/-- Constant `time.Minute`. -/
def Minute : Int := 60000000000

/-- Two's-complement wrap of an integer into the `int64` range. -/
def wrapInt64 (x : Int) : Int :=
  (x + 9223372036854775808) % 18446744073709551616 - 9223372036854775808

/-- `t.After(u)`. -/
abbrev Time.After (t u : Int) : Prop := u < t

/-- `t.Before(u)`. -/
abbrev Time.Before (t u : Int) : Prop := t < u

/-- `t.Sub(u)`: the difference `t - u`, saturated to the `int64` range. -/
def Time.Sub (t u : Int) : Int :=
  if maxDuration < t - u then maxDuration
  else if t - u < minDuration then minDuration
  else t - u

/-- `t.Add(d)`. -/
def Time.Add (t : Int) (d : Int) : Int := t + d

/-- Quotient `a / b` rounded to the nearest integer, ties to the even one (`0 < b`). -/
def roundNearestEven (a b : Nat) : Nat :=
  if 2 * (a % b) < b then a / b
  else if b < 2 * (a % b) then a / b + 1
  else if (a / b) % 2 = 0 then a / b
  else a / b + 1

/-- Search for the highest set bit with a bound on the number of halvings. -/
def log2Fuel : Nat → Nat → Nat
  | 0, _ => 0
  | fuel + 1, n => if n < 2 then 0 else log2Fuel fuel (n / 2) + 1

/-- Index of the highest set bit of `n`, the binary exponent of `n`: `2^(ilog2 n) ≤ n <
2^(ilog2 n + 1)` for `0 < n`. The fuel `n` is never exhausted. -/
def ilog2 (n : Nat) : Nat := log2Fuel n n

/-- The `float64` quotient `float64(n) / float64(b)` for `n ≤ b < 2^53`, `0 < b`, as a
pair `(K, j)` denoting `K / 2^j`; for `n ≠ 0` the exponent `j` is the one that puts
`n * 2^j / b` in `[2^52, 2^53)`, a 53-bit significand. -/
def float64Div (n b : Nat) : Nat × Nat :=
  if n = 0 then (0, 0)
  else
    let j0 := 52 + ilog2 b - ilog2 n
    let j := if 2 ^ 52 * b ≤ n * 2 ^ j0 then j0 else j0 + 1
    (roundNearestEven (n * 2 ^ j) b, j)

/-- Rounding of a natural number to 53 significant bits, nearest, ties to even: the
`float64` nearest to `A / 2^j` is `round53 A / 2^j` (the values met here are far from
the subnormal and the overflow range). -/
def round53 (A : Nat) : Nat :=
  roundNearestEven A (2 ^ (ilog2 A - 52)) * 2 ^ (ilog2 A - 52)

/-- `int(d.Minutes())` for a non-negative duration of `d` nanoseconds, where
`Minutes` is `float64(d / Minute) + float64(d % Minute) / (60 * 1e9)`. -/
def minutesTruncNat (d : Nat) : Nat :=
  let min := d / 60000000000
  let nsec := d % 60000000000
  let q := float64Div nsec 60000000000
  round53 (min * 2 ^ q.2 + q.1) / 2 ^ q.2

/-- `int(d.Minutes())`: quotient and remainder of a negative `d` are both negative,
`float64` rounding and the conversion to `int` are symmetric in the sign. -/
def Duration.MinutesInt (d : Int) : Int :=
  if 0 ≤ d then (minutesTruncNat d.toNat : Int) else -(minutesTruncNat (-d).toNat : Int)

/-! ## Data model of `main.go` -/

/-- Struct `TimeSlot`; `Starts` and `Ends` are instants, in nanoseconds since the zero
Time. -/
structure TimeSlot where
  Id : String
  Starts : Int
  Ends : Int
deriving DecidableEq, Repr

/-- Struct `Photographer`. -/
structure Photographer where
  Id : String
  Name : String
  Availabilities : List TimeSlot
  Bookings : List TimeSlot
deriving DecidableEq, Repr

/-- Struct `Schedule`. -/
structure Schedule where
  Photographer : Photographer
  TimeSlot : TimeSlot
deriving DecidableEq, Repr

/-- Struct `Photographers`: the roster and the accumulated results. -/
structure Photographers where
  Photographers : List Photographer
  Schedules : List Schedule
deriving DecidableEq, Repr

/-! ## Functions of `main.go` -/

/-- Function `timeDiffMinutes`: `int(ends.Sub(starts).Minutes())`. -/
def timeDiffMinutes (starts ends : Int) : Int :=
  Duration.MinutesInt (Time.Sub ends starts)

/-- Method `addAvailableTimeSlot`: appends one `Schedule` whose slot has an empty `Id`,
starts at `starts` and ends at `starts.Add(time.Minute * time.Duration(durationInMinutes))`. -/
def addAvailableTimeSlot (photographers : Photographers)
    (photographer : Photographer) (starts : Int) (durationInMinutes : Int) : Photographers :=
  Photographers.mk photographers.Photographers
    (photographers.Schedules ++
      [Schedule.mk photographer
        (TimeSlot.mk "" starts (Time.Add starts (wrapInt64 (Minute * durationInMinutes))))])

/-- Innermost loop `for iii := ...` of `availableTimeSlotsForBooking`, entered at index
`iii` with the bookings from that index on. The Boolean of the result tells whether
`break outter` was executed. `prevEnds` is declared in the loop body, so every
iteration starts with the zero Time; the assignment `prevEnds = bookingEnds` that ends the
body is never read. -/
def bookingsLoop (photographer photog : Photographer) (starts ends : Int)
    (durationInMinutes : Int) : Nat → List TimeSlot → Photographers → Photographers × Bool
  | _, [], photographers => (photographers, false)
  | iii, booking :: rest, photographers =>
    let bookingStarts := booking.Starts
    let bookingEnds := booking.Ends
    let prevEnds : Int := zeroTime
    let lastCheck : Photographers × Bool :=
      if (iii : Int) = (photographer.Bookings.length : Int) - 1 then
        if timeDiffMinutes bookingEnds ends ≥ durationInMinutes then
          (addAvailableTimeSlot photographers photog bookingEnds durationInMinutes, true)
        else bookingsLoop photographer photog starts ends durationInMinutes (iii + 1) rest
          photographers
      else bookingsLoop photographer photog starts ends durationInMinutes (iii + 1) rest
        photographers
    if Time.After bookingStarts ends ∧ timeDiffMinutes starts ends ≥ durationInMinutes then
      (addAvailableTimeSlot photographers photog starts durationInMinutes, true)
    else if Time.Before bookingStarts ends then
      if iii = 0 then
        if timeDiffMinutes starts bookingStarts ≥ durationInMinutes then
          (addAvailableTimeSlot photographers photog starts durationInMinutes, true)
        else lastCheck
      else
        if timeDiffMinutes prevEnds bookingStarts ≥ durationInMinutes then
          (addAvailableTimeSlot photographers photog prevEnds durationInMinutes, true)
        else lastCheck
    else lastCheck

/-- Loop `outter: for ii := ...` over the availability windows of one photographer. A
window shorter than the duration is passed over; `break outter` of the inner loop leaves
this loop. -/
def availabilitiesLoop (photographer photog : Photographer) (durationInMinutes : Int) :
    List TimeSlot → Photographers → Photographers
  | [], photographers => photographers
  | availability :: rest, photographers =>
    let starts := availability.Starts
    let ends := availability.Ends
    let diff := timeDiffMinutes starts ends
    if durationInMinutes > diff then
      availabilitiesLoop photographer photog durationInMinutes rest photographers
    else
      let r := bookingsLoop photographer photog starts ends durationInMinutes 0
        photographer.Bookings photographers
      if r.2 then r.1
      else availabilitiesLoop photographer photog durationInMinutes rest r.1

/-- Outer loop `for i := ...` over the roster. -/
def photographersLoop (durationInMinutes : Int) :
    List Photographer → Photographers → Photographers
  | [], photographers => photographers
  | photographer :: rest, photographers =>
    let photog : Photographer := Photographer.mk photographer.Id photographer.Name [] []
    photographersLoop durationInMinutes rest
      (availabilitiesLoop photographer photog durationInMinutes photographer.Availabilities
        photographers)

/-- Method `availableTimeSlotsForBooking`: the roster after the call and the returned
slice `photographers.Schedules`. -/
def availableTimeSlotsForBooking (photographers : Photographers)
    (durationInMinutes : Int) : Photographers × List Schedule :=
  let after := photographersLoop durationInMinutes photographers.Photographers photographers
  (after, after.Schedules)

/-! ## Vocabulary of the statements -/

/-- The Schedules one call of `availableTimeSlotsForBooking` appends: what the returned
list holds after the Schedules the roster held before the call. -/
def appended (photographers : Photographers) (durationInMinutes : Int) : List Schedule :=
  (availableTimeSlotsForBooking photographers durationInMinutes).2.drop
    photographers.Schedules.length

/-- The candidates emitted for one photographer: the list returned by the call on the
roster that holds this photographer alone and no earlier Schedules. -/
def candidatesOf (p : Photographer) (durationInMinutes : Int) : List Schedule :=
  (availableTimeSlotsForBooking (Photographers.mk [p] []) durationInMinutes).2

/-- What the innermost loop, entered at index `i` with the bookings `bs`, appends when no
Schedule is held yet. -/
def bookingsEmit (p g : Photographer) (s e : Int) (D : Int) (i : Nat)
    (bs : List TimeSlot) : List Schedule :=
  (bookingsLoop p g s e D i bs (Photographers.mk [] [])).1.Schedules

/-- Whether the innermost loop, entered at index `i` with the bookings `bs`, ends in
`break outter`. -/
def bookingsBreak (p g : Photographer) (s e : Int) (D : Int) (i : Nat)
    (bs : List TimeSlot) : Bool :=
  (bookingsLoop p g s e D i bs (Photographers.mk [] [])).2

/-- What the loop over the windows `ws` appends when no Schedule is held yet. -/
def windowsEmit (p g : Photographer) (D : Int) (ws : List TimeSlot) : List Schedule :=
  (availabilitiesLoop p g D ws (Photographers.mk [] [])).Schedules

/-- Two half-open slots `[Starts, Ends)` have an instant in common. -/
abbrev TimeSlot.overlaps (a b : TimeSlot) : Prop :=
  a.Starts < b.Ends ∧ b.Starts < a.Ends

/-- Bookings as the roster model assumes them: every slot ends strictly after it starts,
the list is ascending by start, and no two slots overlap. -/
abbrev sortedBookings (bookings : List TimeSlot) : Prop :=
  (∀ b ∈ bookings, b.Starts < b.Ends) ∧
  bookings.Pairwise (fun a b => a.Starts ≤ b.Starts) ∧
  bookings.Pairwise (fun a b => ¬ TimeSlot.overlaps a b)

/-- The instant `hh:mm` UTC on 2022-02-13, the day `main.go` is dated; the concrete
scenarios are placed on this day. -/
def clock (hh mm : Nat) : Int :=
  63780307200000000000 + ((hh * 60 + mm : Nat) : Int) * 60000000000

/-- A slot without identifier from `h1:m1` to `h2:m2` on 2022-02-13. -/
def slot (h1 m1 h2 m2 : Nat) : TimeSlot :=
  TimeSlot.mk "" (clock h1 m1) (clock h2 m2)

/-- The photographer with identifier `p1` and name `Ann`, with the given availability
windows and bookings. -/
def ann (windows bookings : List TimeSlot) : Photographer :=
  Photographer.mk "p1" "Ann" windows bookings

/-- The snapshot `photog` that `availableTimeSlotsForBooking` builds for `ann`. -/
def annSnapshot : Photographer := Photographer.mk "p1" "Ann" [] []

/-- The roster in which every availability window shorter than the duration has been
removed from every photographer. -/
def dropShortWindows (durationInMinutes : Int) (photographers : Photographers) :
    Photographers :=
  Photographers.mk
    (photographers.Photographers.map fun p =>
      Photographer.mk p.Id p.Name
        (p.Availabilities.filter fun w =>
          decide (¬ timeDiffMinutes w.Starts w.Ends < durationInMinutes))
        p.Bookings)
    photographers.Schedules

/-- The photographer with identifier `p2` and name `Bob`, with the given availability
windows and bookings. -/
def bob (windows bookings : List TimeSlot) : Photographer :=
  Photographer.mk "p2" "Bob" windows bookings

/-- The snapshot `photog` that `availableTimeSlotsForBooking` builds for `bob`. -/
def bobSnapshot : Photographer := Photographer.mk "p2" "Bob" [] []

/-- Two booking lists differ at most in the `Ends` of bookings that are not the last of
the list: same length, same `Id` and `Starts` throughout, same last booking. -/
def sameButInnerEnds : List TimeSlot → List TimeSlot → Prop
  | [], [] => True
  | [a], [b] => a = b
  | a :: a2 :: as, b :: b2 :: bs =>
    a.Id = b.Id ∧ a.Starts = b.Starts ∧ sameButInnerEnds (a2 :: as) (b2 :: bs)
  | _, _ => False

/-- Two photographers differ at most in the `Ends` of their bookings that are not the
last of the booking list. -/
def samePhotographerButInnerEnds (p q : Photographer) : Prop :=
  p.Id = q.Id ∧ p.Name = q.Name ∧ p.Availabilities = q.Availabilities ∧
    sameButInnerEnds p.Bookings q.Bookings

/-- Window of the rounding scenario: it starts at 09:00 on 2022-02-13 and ends one
nanosecond short of 524320 minutes later, at `2023-02-12T11:39:59.999999999Z`. -/
def longWindow : TimeSlot :=
  TimeSlot.mk "" (clock 9 0) (clock 9 0 + Minute * 524320 - 1)

/-- Booking of the rounding scenario: 30 minutes that start one nanosecond short of
262145 minutes after 09:00 on 2022-02-13, at `2022-08-14T10:04:59.999999999Z`. -/
def lateBooking : TimeSlot :=
  TimeSlot.mk "" (clock 9 0 + Minute * 262145 - 1) (clock 9 0 + Minute * 262175 - 1)

/-! ## The loops relative to the Schedules already held -/

/-- The innermost loop leaves the roster alone and appends to the Schedules a list that
does not depend on the Schedules already held. -/
theorem bookingsLoop_frame (p g : Photographer) (s e : Int) (D : Int) (bs : List TimeSlot) :
    ∀ (i : Nat) (ps : Photographers),
      bookingsLoop p g s e D i bs ps =
        (Photographers.mk ps.Photographers (ps.Schedules ++ bookingsEmit p g s e D i bs),
          bookingsBreak p g s e D i bs) := by
  induction bs with
  | nil => intro i ps; simp [bookingsLoop, bookingsEmit, bookingsBreak]
  | cons b rest ih =>
    intro i ps
    have h := ih (i + 1) ps
    have h0 := ih (i + 1) (Photographers.mk [] [])
    simp only [bookingsEmit, bookingsBreak] at h h0 ⊢
    simp only [bookingsLoop]
    split_ifs <;> first | exact h | simp [addAvailableTimeSlot]

/-- The innermost loop either does not break and appends nothing, or breaks and appends
exactly one Schedule, for the snapshot `g`, of the form `addAvailableTimeSlot` builds. -/
theorem bookingsLoop_cases (p g : Photographer) (s e : Int) (D : Int) (bs : List TimeSlot) :
    ∀ i : Nat,
      (bookingsBreak p g s e D i bs = false ∧ bookingsEmit p g s e D i bs = []) ∨
      (bookingsBreak p g s e D i bs = true ∧
        ∃ t : Int, bookingsEmit p g s e D i bs =
          [Schedule.mk g (TimeSlot.mk "" t (Time.Add t (wrapInt64 (Minute * D))))]) := by
  induction bs with
  | nil => intro i; simp [bookingsLoop, bookingsEmit, bookingsBreak]
  | cons b rest ih =>
    intro i
    have h := ih (i + 1)
    simp only [bookingsEmit, bookingsBreak] at h ⊢
    simp only [bookingsLoop]
    split_ifs <;> first | exact h | simp [addAvailableTimeSlot]

theorem bookingsEmit_of_not_break (p g : Photographer) (s e : Int) (D : Int)
    (bs : List TimeSlot) (i : Nat) (h : bookingsBreak p g s e D i bs = false) :
    bookingsEmit p g s e D i bs = [] := by
  rcases bookingsLoop_cases p g s e D bs i with ⟨_, h2⟩ | ⟨h1, _⟩
  · exact h2
  · rw [h] at h1; cases h1

/-- The loop over the windows leaves the roster alone and appends a list that does not
depend on the Schedules already held. -/
theorem availabilitiesLoop_frame (p g : Photographer) (D : Int) (ws : List TimeSlot) :
    ∀ ps : Photographers,
      availabilitiesLoop p g D ws ps =
        Photographers.mk ps.Photographers (ps.Schedules ++ windowsEmit p g D ws) := by
  induction ws with
  | nil => intro ps; simp [availabilitiesLoop, windowsEmit]
  | cons w rest ih =>
    intro ps
    simp only [windowsEmit, availabilitiesLoop]
    rw [bookingsLoop_frame p g w.Starts w.Ends D p.Bookings 0 ps,
      bookingsLoop_frame p g w.Starts w.Ends D p.Bookings 0 (Photographers.mk [] [])]
    simp only []
    split_ifs with h1 h2
    · rw [ih ps]; simp [windowsEmit]
    · simp
    · simp only [Bool.not_eq_true] at h2
      rw [ih, ih (Photographers.mk _ _)]
      simp [bookingsEmit_of_not_break p g w.Starts w.Ends D p.Bookings 0 h2]

/-- How the windows loop treats its first window: passed over when shorter than the
duration, decisive when the bookings loop breaks, otherwise without effect. -/
theorem windowsEmit_cons (p g : Photographer) (D : Int) (w : TimeSlot) (ws : List TimeSlot) :
    windowsEmit p g D (w :: ws) =
      if D > timeDiffMinutes w.Starts w.Ends then windowsEmit p g D ws
      else if bookingsBreak p g w.Starts w.Ends D 0 p.Bookings = true then
        bookingsEmit p g w.Starts w.Ends D 0 p.Bookings
      else windowsEmit p g D ws := by
  simp only [windowsEmit, availabilitiesLoop]
  rw [bookingsLoop_frame p g w.Starts w.Ends D p.Bookings 0 (Photographers.mk [] [])]
  simp only []
  split_ifs with h1 h2
  · rfl
  · simp
  · simp only [Bool.not_eq_true] at h2
    rw [availabilitiesLoop_frame]
    simp [windowsEmit, bookingsEmit_of_not_break p g w.Starts w.Ends D p.Bookings 0 h2]

theorem windowsEmit_nil (p g : Photographer) (D : Int) : windowsEmit p g D [] = [] := by
  simp [windowsEmit, availabilitiesLoop]

theorem candidatesOf_eq (p : Photographer) (D : Int) :
    candidatesOf p D =
      windowsEmit p (Photographer.mk p.Id p.Name [] []) D p.Availabilities := by
  simp [candidatesOf, availableTimeSlotsForBooking, photographersLoop, availabilitiesLoop_frame]

/-- The outer loop appends, photographer after photographer, the candidates of each. -/
theorem photographersLoop_frame (D : Int) (l : List Photographer) :
    ∀ ps : Photographers,
      photographersLoop D l ps =
        Photographers.mk ps.Photographers
          (ps.Schedules ++ (l.map fun p => candidatesOf p D).flatten) := by
  induction l with
  | nil => intro ps; simp [photographersLoop]
  | cons p rest ih =>
    intro ps
    simp only [photographersLoop]
    rw [ih, availabilitiesLoop_frame]
    simp [candidatesOf_eq]

theorem availableTimeSlotsForBooking_eq (ps : Photographers) (D : Int) :
    availableTimeSlotsForBooking ps D =
      (Photographers.mk ps.Photographers
          (ps.Schedules ++ (ps.Photographers.map fun p => candidatesOf p D).flatten),
        ps.Schedules ++ (ps.Photographers.map fun p => candidatesOf p D).flatten) := by
  simp [availableTimeSlotsForBooking, photographersLoop_frame]

theorem appended_eq (ps : Photographers) (D : Int) :
    appended ps D = (ps.Photographers.map fun p => candidatesOf p D).flatten := by
  simp [appended, availableTimeSlotsForBooking_eq]

/-! ## Arithmetic of `timeDiffMinutes` -/

theorem roundNearestEven_le (a b : Nat) (hb : 0 < b) :
    roundNearestEven a b * (2 * b) ≤ 2 * a + b := by
  have hdm : b * (a / b) + a % b = a := Nat.div_add_mod a b
  have hr : a % b < b := Nat.mod_lt a hb
  have e1 : a / b * (2 * b) = 2 * (b * (a / b)) := by ring
  have e2 : (a / b + 1) * (2 * b) = 2 * (b * (a / b)) + 2 * b := by ring
  unfold roundNearestEven
  split_ifs <;> omega

theorem two_pow_log2Fuel_le (fuel : Nat) : ∀ n : Nat, n ≠ 0 → 2 ^ log2Fuel fuel n ≤ n := by
  induction fuel with
  | zero => intro n hn; simp [log2Fuel]; omega
  | succ f ih =>
    intro n hn
    simp only [log2Fuel]
    split_ifs with h
    · simp; omega
    · have h2 : n / 2 ≠ 0 := by omega
      have := ih (n / 2) h2
      rw [pow_succ]
      omega

theorem two_pow_ilog2_le (n : Nat) (hn : n ≠ 0) : 2 ^ ilog2 n ≤ n :=
  two_pow_log2Fuel_le n n hn

theorem lt_two_pow_log2Fuel (fuel : Nat) :
    ∀ n : Nat, n ≤ fuel → n < 2 ^ (log2Fuel fuel n + 1) := by
  induction fuel with
  | zero => intro n hn; simp [log2Fuel]; omega
  | succ f ih =>
    intro n hn
    simp only [log2Fuel]
    split_ifs with h
    · simp; omega
    · have := ih (n / 2) (by omega)
      rw [pow_succ]
      omega

theorem lt_two_pow_ilog2 (n : Nat) : n < 2 ^ (ilog2 n + 1) :=
  lt_two_pow_log2Fuel n n le_rfl

theorem round53_le (A : Nat) :
    2 * round53 A ≤ 2 * A + 2 ^ (ilog2 A - 52) ∧ 2 ^ (ilog2 A - 52) * 2 ^ 52 ≤ A + 2 ^ 52 := by
  have hpos : 0 < 2 ^ (ilog2 A - 52) := Nat.two_pow_pos _
  have h := roundNearestEven_le A (2 ^ (ilog2 A - 52)) hpos
  constructor
  · unfold round53
    have e : 2 * (roundNearestEven A (2 ^ (ilog2 A - 52)) * 2 ^ (ilog2 A - 52)) =
        roundNearestEven A (2 ^ (ilog2 A - 52)) * (2 * 2 ^ (ilog2 A - 52)) := by ring
    omega
  · by_cases hA : A = 0
    · subst hA
      have : ilog2 0 = 0 := rfl
      simp [this]
    · by_cases h52 : 52 ≤ ilog2 A
      · have := two_pow_ilog2_le A hA
        rw [← pow_add, Nat.sub_add_cancel h52]
        omega
      · have : ilog2 A - 52 = 0 := by omega
        rw [this]; omega

theorem float64Div_exp (n : Nat) (hn : n ≠ 0) (hlt : n < 60000000000) :
    2 ^ 52 ≤ 2 ^ (float64Div n 60000000000).2 ∧
    (float64Div n 60000000000).1 * (2 * 60000000000) ≤
      2 * (n * 2 ^ (float64Div n 60000000000).2) + 60000000000 := by
  have hb : ilog2 60000000000 = 35 := by rfl
  have hle := two_pow_ilog2_le n hn
  have h36 : ilog2 n < 36 := by
    by_contra hc
    have : 2 ^ 36 ≤ 2 ^ ilog2 n := Nat.pow_le_pow_right (by norm_num) (by omega)
    omega
  simp only [float64Div, if_neg hn, hb]
  constructor
  · apply Nat.pow_le_pow_right (by norm_num)
    split_ifs <;> omega
  · exact roundNearestEven_le _ _ (by norm_num)

theorem minutesTruncNat_le (d : Nat) (hd : d ≤ 9223372036854775808) :
    minutesTruncNat d ≤ 153722867 := by
  have hdm : 60000000000 * (d / 60000000000) + d % 60000000000 = d := Nat.div_add_mod d _
  have hr : d % 60000000000 < 60000000000 := Nat.mod_lt d (by norm_num)
  unfold minutesTruncNat
  simp only []
  by_cases hn : d % 60000000000 = 0
  · have hq : float64Div (d % 60000000000) 60000000000 = (0, 0) := by simp [float64Div, hn]
    rw [hq]
    simp only [pow_zero, mul_one, add_zero, Nat.div_one]
    have h1 := round53_le (d / 60000000000)
    have hp : 0 < 2 ^ (ilog2 (d / 60000000000) - 52) := Nat.two_pow_pos _
    omega
  · obtain ⟨hj, hK⟩ := float64Div_exp _ hn hr
    generalize (float64Div (d % 60000000000) 60000000000).2 = j at hj hK ⊢
    generalize (float64Div (d % 60000000000) 60000000000).1 = K at hK ⊢
    obtain ⟨h1, h2⟩ := round53_le (d / 60000000000 * 2 ^ j + K)
    generalize round53 (d / 60000000000 * 2 ^ j + K) = R at h1 ⊢
    generalize 2 ^ (ilog2 (d / 60000000000 * 2 ^ j + K) - 52) = S at h1 h2
    have hX : 0 < 2 ^ j := Nat.two_pow_pos _
    have hmul : (60000000000 * (d / 60000000000) + d % 60000000000) * 2 ^ j
        ≤ 9223372036854775808 * 2 ^ j := Nat.mul_le_mul_right _ (by omega)
    rw [add_mul, mul_assoc] at hmul
    generalize d / 60000000000 * 2 ^ j = mX at *
    generalize d % 60000000000 * 2 ^ j = nX at *
    generalize 2 ^ j = X at *
    have : R < 153722868 * X := by omega
    rw [Nat.lt_succ_iff.symm]
    exact (Nat.div_lt_iff_lt_mul hX).2 this

theorem Time.Sub_bounds (t u : Int) :
    (-9223372036854775808 : Int) ≤ Time.Sub t u ∧ (Time.Sub t u : Int) ≤ 9223372036854775807 := by
  simp only [Time.Sub, maxDuration, minDuration]
  split_ifs <;> constructor <;> omega

theorem Time.Sub_exact (t u : Int) (h1 : -9223372036854775808 ≤ t - u)
    (h2 : t - u ≤ 9223372036854775807) : (Time.Sub t u : Int) = t - u := by
  simp only [Time.Sub, maxDuration, minDuration]
  split_ifs <;> omega

/-- No difference of two instants exceeds 153722867 minutes: `Sub` saturates at
`2^63 - 1` nanoseconds and the `float64` roundings of `Minutes` do not reach the next
minute there. -/
theorem timeDiffMinutes_le (s e : Int) : (timeDiffMinutes s e : Int) ≤ 153722867 := by
  have hb := Time.Sub_bounds e s
  unfold timeDiffMinutes Duration.MinutesInt
  split_ifs with h
  · have := minutesTruncNat_le (Time.Sub e s).toNat (by omega)
    omega
  · omega

/-- A whole number of minutes below `2^53` is measured exactly. -/
theorem minutesTruncNat_mul (k : Nat) (hk : k < 9007199254740992) :
    minutesTruncNat (k * 60000000000) = k := by
  have h52 : ilog2 k - 52 = 0 := by
    by_cases h0 : k = 0
    · subst h0; rfl
    · have := two_pow_ilog2_le k h0
      by_contra hc
      have : 2 ^ 53 ≤ 2 ^ ilog2 k := Nat.pow_le_pow_right (by norm_num) (by omega)
      omega
  simp [minutesTruncNat, float64Div, round53, h52, roundNearestEven, Nat.mod_one]

/-- The product `time.Minute * time.Duration(D)` does not wrap for `|D| ≤ 153722867`. -/
theorem wrapInt64_minutes (D : Int) (h1 : -153722867 ≤ D) (h2 : D ≤ 153722867) :
    wrapInt64 (Minute * D) = 60000000000 * D := by
  simp only [wrapInt64, Minute]
  omega

/-- The bound `-153722867 ≤ D` of `wrapInt64_minutes` is sharp. `D = -153722868` is no
duration (durations are positive), and there the product `time.Minute * D` falls below
`-2^63` and wraps to `9223371993709551616` nanoseconds. -/
theorem wrapInt64_minutes_sharp :
    wrapInt64 (Minute * (-153722868)) = 9223371993709551616 := by
  decide

/-- A slot of `D` minutes, `|D| ≤ 153722867`, measures `D` minutes. -/
theorem timeDiffMinutes_add (t : Int) (D : Int) (h1 : -153722867 ≤ D) (h2 : D ≤ 153722867) :
    timeDiffMinutes t (t + 60000000000 * D) = D := by
  have hsub : Time.Sub (t + 60000000000 * D) t = 60000000000 * D := by
    rw [Time.Sub_exact _ _ (by omega) (by omega)]; omega
  unfold timeDiffMinutes Duration.MinutesInt
  rw [hsub]
  split_ifs with h
  · have hD : 0 ≤ D := by omega
    obtain ⟨k, rfl⟩ := Int.eq_ofNat_of_zero_le hD
    have e : (60000000000 * (k : Int)).toNat = k * 60000000000 := by omega
    rw [e, minutesTruncNat_mul k (by omega)]
  · have hD : 0 ≤ -D := by omega
    obtain ⟨k, hk⟩ := Int.eq_ofNat_of_zero_le hD
    have e : (-(60000000000 * D)).toNat = k * 60000000000 := by omega
    rw [e, minutesTruncNat_mul k (by omega)]
    omega

/-! ## Properties of the windows loop -/

/-- The bookings loop reads the photographer only through the booking list. -/
theorem bookingsLoop_congr (p q g : Photographer) (s e : Int) (D : Int)
    (h : p.Bookings = q.Bookings) (bs : List TimeSlot) :
    ∀ (i : Nat) (ps : Photographers),
      bookingsLoop p g s e D i bs ps = bookingsLoop q g s e D i bs ps := by
  induction bs with
  | nil => intro i ps; simp [bookingsLoop]
  | cons b rest ih =>
    intro i ps
    simp only [bookingsLoop, h, ih]

/-- The windows loop reads the photographer only through the booking list. -/
theorem windowsEmit_congr (p q g : Photographer) (D : Int) (h : p.Bookings = q.Bookings)
    (ws : List TimeSlot) : windowsEmit p g D ws = windowsEmit q g D ws := by
  induction ws with
  | nil => simp [windowsEmit_nil]
  | cons w rest ih =>
    rw [windowsEmit_cons, windowsEmit_cons, ih]
    simp only [bookingsBreak, bookingsEmit, h, bookingsLoop_congr p q g _ _ D h]

/-- A window list yields at most one Schedule per window. -/
theorem windowsEmit_length_le (p g : Photographer) (D : Int) (ws : List TimeSlot) :
    (windowsEmit p g D ws).length ≤ ws.length := by
  induction ws with
  | nil => simp [windowsEmit_nil]
  | cons w rest ih =>
    rw [windowsEmit_cons]
    split_ifs with h1 h2
    · simp only [List.length_cons]; omega
    · rcases bookingsLoop_cases p g w.Starts w.Ends D p.Bookings 0 with ⟨_, h⟩ | ⟨_, t, h⟩ <;>
        simp [h]
    · simp only [List.length_cons]; omega

/-- Without bookings no window yields a Schedule. -/
theorem windowsEmit_no_bookings (p g : Photographer) (D : Int) (h : p.Bookings = [])
    (ws : List TimeSlot) : windowsEmit p g D ws = [] := by
  induction ws with
  | nil => simp [windowsEmit_nil]
  | cons w rest ih =>
    rw [windowsEmit_cons, ih, h]
    simp [bookingsBreak, bookingsLoop]

/-- Windows shorter than the duration can be removed without changing what is emitted. -/
theorem windowsEmit_filter (p g : Photographer) (D : Int) (ws : List TimeSlot) :
    windowsEmit p g D
        (ws.filter fun w => decide (¬ timeDiffMinutes w.Starts w.Ends < D)) =
      windowsEmit p g D ws := by
  induction ws with
  | nil => simp [windowsEmit_nil]
  | cons w rest ih =>
    by_cases hw : timeDiffMinutes w.Starts w.Ends < D
    · rw [List.filter_cons_of_neg (by simpa using hw), ih, windowsEmit_cons,
        if_pos (by omega)]
    · rw [List.filter_cons_of_pos (by simpa using hw), windowsEmit_cons, windowsEmit_cons, ih]

/-- When every window is shorter than the duration nothing is emitted. -/
theorem windowsEmit_all_short (p g : Photographer) (D : Int) (ws : List TimeSlot)
    (h : ∀ w ∈ ws, timeDiffMinutes w.Starts w.Ends < D) : windowsEmit p g D ws = [] := by
  induction ws with
  | nil => simp [windowsEmit_nil]
  | cons w rest ih =>
    have hw := h w (by simp)
    rw [windowsEmit_cons, if_pos (by omega)]
    exact ih fun v hv => h v (by simp [hv])

/-- What a window list emits is what its first window that emits on its own emits. -/
theorem windowsEmit_find (p g : Photographer) (D : Int) (ws : List TimeSlot) :
    windowsEmit p g D ws =
      ((ws.map fun w => windowsEmit p g D [w]).find? fun c => !c.isEmpty).getD [] := by
  induction ws with
  | nil => simp [windowsEmit_nil]
  | cons w rest ih =>
    rw [List.map_cons, List.find?_cons, windowsEmit_cons p g D w rest,
      windowsEmit_cons p g D w [], windowsEmit_nil]
    split_ifs with h1 h2
    · simpa using ih
    · rcases bookingsLoop_cases p g w.Starts w.Ends D p.Bookings 0 with ⟨hb, _⟩ | ⟨_, t, h⟩
      · rw [hb] at h2; cases h2
      · simp [h]
    · simpa using ih

/-- Every emitted slot spans the requested number of minutes, for the durations whose
nanosecond count fits `int64`. -/
theorem windowsEmit_slot (p g : Photographer) (D : Int) (hD : -153722867 ≤ D)
    (ws : List TimeSlot) :
    ∀ s ∈ windowsEmit p g D ws,
      s.TimeSlot.Ends = s.TimeSlot.Starts + 60000000000 * D ∧
      timeDiffMinutes s.TimeSlot.Starts s.TimeSlot.Ends = D := by
  induction ws with
  | nil => simp [windowsEmit_nil]
  | cons w rest ih =>
    rw [windowsEmit_cons]
    split_ifs with h1 h2
    · exact ih
    · have hle := timeDiffMinutes_le w.Starts w.Ends
      have hD2 : D ≤ 153722867 := by omega
      rcases bookingsLoop_cases p g w.Starts w.Ends D p.Bookings 0 with ⟨_, h⟩ | ⟨_, t, h⟩
      · simp [h]
      · intro s hs
        rw [h, List.mem_singleton] at hs
        subst hs
        simp only [Time.Add, wrapInt64_minutes D hD hD2]
        exact ⟨trivial, timeDiffMinutes_add t D hD hD2⟩
    · exact ih

/-! ## The claims -/

/-- C1, a defect of the code. Claim: with sorted, non-overlapping bookings no emitted
candidate overlaps a booking. At `D = 90`, window 09:00-12:00, bookings 09:30-10:00 and
12:30-13:00, the second booking starts after the window's end, and the code emits the
slot 09:00-10:30 at the window's start, which overlaps the first booking. -/
theorem c1_candidate_overlaps_booking :
    sortedBookings [slot 9 30 10 0, slot 12 30 13 0] ∧
    candidatesOf (ann [slot 9 0 12 0] [slot 9 30 10 0, slot 12 30 13 0]) 90 =
      [Schedule.mk annSnapshot (slot 9 0 10 30)] ∧
    TimeSlot.overlaps (slot 9 0 10 30) (slot 9 30 10 0) := by
  refine ⟨by decide, by rfl, by decide⟩

/-- C2. For every roster and every duration `D` (a count of minutes, `D > 0`), every
Schedule one call appends has `Ends = Starts + D` minutes exactly, never clipped to the
surrounding gap or window, and `timeDiffMinutes` of the slot is `D`. -/
theorem c2_slot_spans_duration (ps : Photographers) (D : Int) (hD : 0 < D) :
    ∀ s ∈ appended ps D,
      s.TimeSlot.Ends = s.TimeSlot.Starts + Minute * D ∧
      timeDiffMinutes s.TimeSlot.Starts s.TimeSlot.Ends = D := by
  intro s hs
  rw [appended_eq] at hs
  obtain ⟨l, hl, hsl⟩ := List.mem_flatten.1 hs
  obtain ⟨p, _, rfl⟩ := List.mem_map.1 hl
  rw [candidatesOf_eq] at hsl
  exact windowsEmit_slot p _ D (by omega) p.Availabilities s hsl

/-- C2 at `D = 90` on the roster of one window 09:00-12:00 with the booking
10:00-10:30. -/
theorem c2_slot_spans_duration_witness :
    (0 : Int) < 90 ∧
    ∀ s ∈ appended (Photographers.mk [ann [slot 9 0 12 0] [slot 10 0 10 30]] []) 90,
      s.TimeSlot.Ends = s.TimeSlot.Starts + Minute * 90 ∧
      timeDiffMinutes s.TimeSlot.Starts s.TimeSlot.Ends = 90 :=
  ⟨by decide, c2_slot_spans_duration _ 90 (by decide)⟩

/-- C3, counterexample. At `D = 90` with the booking 13:00-13:30, the window 09:00-12:00
alone yields 09:00-10:30 and the window 13:00-17:00 alone yields 13:30-15:00, but the two
windows together yield 09:00-10:30 only, not the concatenation of the two. -/
theorem c3_second_window_not_examined :
    candidatesOf (ann [slot 9 0 12 0] [slot 13 0 13 30]) 90 =
      [Schedule.mk annSnapshot (slot 9 0 10 30)] ∧
    candidatesOf (ann [slot 13 0 17 0] [slot 13 0 13 30]) 90 =
      [Schedule.mk annSnapshot (slot 13 30 15 0)] ∧
    candidatesOf (ann [slot 9 0 12 0, slot 13 0 17 0] [slot 13 0 13 30]) 90 =
      [Schedule.mk annSnapshot (slot 9 0 10 30)] ∧
    candidatesOf (ann [slot 9 0 12 0, slot 13 0 17 0] [slot 13 0 13 30]) 90 ≠
      candidatesOf (ann [slot 9 0 12 0] [slot 13 0 13 30]) 90 ++
        candidatesOf (ann [slot 13 0 17 0] [slot 13 0 13 30]) 90 := by
  refine ⟨by rfl, by rfl, by rfl, by decide⟩

/-- C3, amended. For every photographer with bookings `B` and windows `w1..wn` and every
`D`, the candidates emitted are those of the first window, in window order, that yields a
candidate when it is the photographer's only window (same bookings `B`), and none when no
window does; later windows are not examined. -/
theorem c3_first_yielding_window (id name : String) (ws bs : List TimeSlot) (D : Int) :
    candidatesOf (Photographer.mk id name ws bs) D =
      ((ws.map fun w => candidatesOf (Photographer.mk id name [w] bs) D).find?
        fun c => !c.isEmpty).getD [] := by
  rw [candidatesOf_eq, windowsEmit_find]
  congr 2
  apply List.map_congr_left
  intro w _
  rw [candidatesOf_eq]
  exact windowsEmit_congr (Photographer.mk id name ws bs) (Photographer.mk id name [w] bs) _ D
    rfl [w]

/-- C4, a defect of the code. Claim: a gap of at least `D` minutes between booking `i-1`
and booking `i` yields the candidate that starts at the end of booking `i-1`. At
`D = 90`, window 09:00-13:00, bookings 09:30-10:00 and 12:00-12:30: the leading gap is
30 minutes, the second booking starts before the window's end and the gap 10:00-12:00 is
120 minutes, so the claim gives 10:00-11:30. The code reads `prevEnds` as the zero Time
and emits the 90 minutes that start at `0001-01-01T00:00:00Z`. -/
theorem c4_gap_slot_starts_at_zero_time :
    sortedBookings [slot 9 30 10 0, slot 12 0 12 30] ∧
    timeDiffMinutes (clock 9 0) (clock 13 0) ≥ 90 ∧
    timeDiffMinutes (clock 9 0) (clock 9 30) < 90 ∧
    Time.Before (clock 12 0) (clock 13 0) ∧
    timeDiffMinutes (clock 10 0) (clock 12 0) ≥ 90 ∧
    candidatesOf (ann [slot 9 0 13 0] [slot 9 30 10 0, slot 12 0 12 30]) 90 =
      [Schedule.mk annSnapshot (TimeSlot.mk "" zeroTime (zeroTime + Minute * 90))] ∧
    candidatesOf (ann [slot 9 0 13 0] [slot 9 30 10 0, slot 12 0 12 30]) 90 ≠
      [Schedule.mk annSnapshot (slot 10 0 11 30)] := by
  refine ⟨by decide!, by decide!, by decide!, by decide!, by decide!, by decide!, by decide!⟩

/-- C5, a defect of the code. Claim and its witness: at `D = 90`, window 09:00-13:00,
bookings 09:30-10:00 and 11:00-11:15, the leading gap (30) and the gap between the
bookings (60) are shorter than `D`, the trailing gap is 105 minutes, and the one candidate
is 11:15-12:45. The code, at the second booking, measures the gap from the zero Time,
finds it long enough and emits the 90 minutes that start at `0001-01-01T00:00:00Z`; the
trailing gap is never examined. -/
theorem c5_trailing_gap_not_reached :
    sortedBookings [slot 9 30 10 0, slot 11 0 11 15] ∧
    timeDiffMinutes (clock 9 0) (clock 9 30) < 90 ∧
    timeDiffMinutes (clock 10 0) (clock 11 0) < 90 ∧
    timeDiffMinutes (clock 11 15) (clock 13 0) ≥ 90 ∧
    timeDiffMinutes zeroTime (clock 11 0) = 153722867 ∧
    candidatesOf (ann [slot 9 0 13 0] [slot 9 30 10 0, slot 11 0 11 15]) 90 =
      [Schedule.mk annSnapshot (TimeSlot.mk "" zeroTime (zeroTime + Minute * 90))] ∧
    candidatesOf (ann [slot 9 0 13 0] [slot 9 30 10 0, slot 11 0 11 15]) 90 ≠
      [Schedule.mk annSnapshot (slot 11 15 12 45)] := by
  refine ⟨by decide!, by decide!, by decide!, by decide!, by decide!, by decide!, by decide!⟩

/-- C6, a defect of the code. Claim: with a single window and a non-empty, sorted,
non-overlapping booking list every candidate starts at or after the window's start. At
`D = 90`: with the window 09:00-17:00 and the bookings 09:30-10:30 and 11:00-12:00 the
candidate starts at the zero Time, `0001-01-01T00:00:00Z`; with the window 09:00-12:00
and the single booking 07:00-08:00 the candidate is 08:00-09:30. Both start before
09:00. -/
theorem c6_candidate_starts_before_window :
    sortedBookings [slot 9 30 10 30, slot 11 0 12 0] ∧
    candidatesOf (ann [slot 9 0 17 0] [slot 9 30 10 30, slot 11 0 12 0]) 90 =
      [Schedule.mk annSnapshot (TimeSlot.mk "" zeroTime (zeroTime + Minute * 90))] ∧
    zeroTime < clock 9 0 ∧
    sortedBookings [slot 7 0 8 0] ∧
    candidatesOf (ann [slot 9 0 12 0] [slot 7 0 8 0]) 90 =
      [Schedule.mk annSnapshot (slot 8 0 9 30)] ∧
    clock 8 0 < clock 9 0 := by
  refine ⟨by decide!, by decide!, by decide!, by decide!, by decide!, by decide!⟩

/-- C7, counterexample. On the roster of one window 09:00-12:00 with the booking
10:00-10:30 the first call at `D = 90` returns the one candidate 10:30-12:00 and the
second call, on the roster the first call left, returns that candidate twice. -/
theorem c7_second_call_returns_longer_list :
    (availableTimeSlotsForBooking
        (Photographers.mk [ann [slot 9 0 12 0] [slot 10 0 10 30]] []) 90).2 =
      [Schedule.mk annSnapshot (slot 10 30 12 0)] ∧
    (availableTimeSlotsForBooking
        (availableTimeSlotsForBooking
          (Photographers.mk [ann [slot 9 0 12 0] [slot 10 0 10 30]] []) 90).1 90).2 =
      [Schedule.mk annSnapshot (slot 10 30 12 0), Schedule.mk annSnapshot (slot 10 30 12 0)] ∧
    (availableTimeSlotsForBooking
        (availableTimeSlotsForBooking
          (Photographers.mk [ann [slot 9 0 12 0] [slot 10 0 10 30]] []) 90).1 90).2 ≠
      (availableTimeSlotsForBooking
        (Photographers.mk [ann [slot 9 0 12 0] [slot 10 0 10 30]] []) 90).2 := by
  refine ⟨by rfl, by rfl, by decide!⟩

/-- C7, amended. For every roster and duration `D`, the second of two calls in succession
appends the same ordered candidates as the first: the roster is unchanged by the first
call, the Schedules appended by the two calls are identical, and the second call returns
the list the first returned followed by those candidates once more. -/
theorem c7_second_call_appends_same (ps : Photographers) (D : Int) :
    (availableTimeSlotsForBooking ps D).1.Photographers = ps.Photographers ∧
    appended (availableTimeSlotsForBooking ps D).1 D = appended ps D ∧
    (availableTimeSlotsForBooking (availableTimeSlotsForBooking ps D).1 D).2 =
      (availableTimeSlotsForBooking ps D).2 ++ appended ps D := by
  simp [appended_eq, availableTimeSlotsForBooking_eq]

/-- C8. Removing from every photographer each window whose `timeDiffMinutes` is less
than `D` leaves the list returned by `availableTimeSlotsForBooking(D)` unchanged; when
every window of every photographer is shorter than `D`, the call appends nothing. -/
theorem c8_short_windows_skipped (ps : Photographers) (D : Int) :
    (availableTimeSlotsForBooking (dropShortWindows D ps) D).2 =
      (availableTimeSlotsForBooking ps D).2 ∧
    ((∀ p ∈ ps.Photographers, ∀ w ∈ p.Availabilities,
        timeDiffMinutes w.Starts w.Ends < D) →
      (availableTimeSlotsForBooking ps D).2 = ps.Schedules) := by
  constructor
  · simp only [availableTimeSlotsForBooking_eq, dropShortWindows, List.map_map]
    congr 2
    apply List.map_congr_left
    intro p _
    simp only [Function.comp, candidatesOf_eq]
    rw [windowsEmit_filter]
    exact windowsEmit_congr
      (Photographer.mk p.Id p.Name
        (p.Availabilities.filter fun w => decide (¬ timeDiffMinutes w.Starts w.Ends < D))
        p.Bookings) p _ D rfl p.Availabilities
  · intro h
    rw [availableTimeSlotsForBooking_eq]
    have hnil : ∀ l ∈ ps.Photographers.map (fun p => candidatesOf p D), l = [] := by
      intro l hl
      obtain ⟨p, hp, rfl⟩ := List.mem_map.1 hl
      rw [candidatesOf_eq]
      exact windowsEmit_all_short p _ D p.Availabilities (h p hp)
    simp [List.flatten_eq_nil_iff.2 hnil]

/-- C8 at the scenario `D = 90`, window 08:00-09:00 (60 minutes), booking 08:15-08:30:
nothing is appended. -/
theorem c8_short_windows_skipped_witness :
    (∀ p ∈ (Photographers.mk [ann [slot 8 0 9 0] [slot 8 15 8 30]] []).Photographers,
      ∀ w ∈ p.Availabilities, timeDiffMinutes w.Starts w.Ends < 90) ∧
    (availableTimeSlotsForBooking
      (Photographers.mk [ann [slot 8 0 9 0] [slot 8 15 8 30]] []) 90).2 = [] :=
  ⟨by decide,
    (c8_short_windows_skipped
      (Photographers.mk [ann [slot 8 0 9 0] [slot 8 15 8 30]] []) 90).2 (by decide)⟩

/-- C9. When every photographer of the roster has an empty booking list, the call
appends nothing, for every duration `D` and any availability windows: the roster is
unchanged and the returned list is the list of Schedules held before. -/
theorem c9_no_bookings_no_candidate (ps : Photographers) (D : Int)
    (h : ∀ p ∈ ps.Photographers, p.Bookings = []) :
    availableTimeSlotsForBooking ps D = (ps, ps.Schedules) := by
  rw [availableTimeSlotsForBooking_eq]
  have hnil : ∀ l ∈ ps.Photographers.map (fun p => candidatesOf p D), l = [] := by
    intro l hl
    obtain ⟨p, hp, rfl⟩ := List.mem_map.1 hl
    rw [candidatesOf_eq]
    exact windowsEmit_no_bookings p _ D (h p hp) p.Availabilities
  simp [List.flatten_eq_nil_iff.2 hnil]

/-- C9 at the scenario `D = 90`, window 09:00-12:00, no bookings. -/
theorem c9_no_bookings_no_candidate_witness :
    (∀ p ∈ (Photographers.mk [ann [slot 9 0 12 0] []] []).Photographers, p.Bookings = []) ∧
    availableTimeSlotsForBooking (Photographers.mk [ann [slot 9 0 12 0] []] []) 90 =
      (Photographers.mk [ann [slot 9 0 12 0] []] [], []) :=
  ⟨by decide, c9_no_bookings_no_candidate _ 90 (by decide)⟩

/-- C10. One call appends, photographer after photographer, the candidates of each
photographer; for every photographer these are at most as many as the photographer has
availability windows, so the call appends at most as many Schedules as the roster has
windows. -/
theorem c10_at_most_one_per_window (ps : Photographers) (D : Int) :
    appended ps D = (ps.Photographers.map fun p => candidatesOf p D).flatten ∧
    (∀ p : Photographer, (candidatesOf p D).length ≤ p.Availabilities.length) ∧
    (appended ps D).length ≤ (ps.Photographers.map fun p => p.Availabilities.length).sum := by
  have hp : ∀ p : Photographer, (candidatesOf p D).length ≤ p.Availabilities.length := by
    intro p
    rw [candidatesOf_eq]
    exact windowsEmit_length_le p _ D p.Availabilities
  refine ⟨appended_eq ps D, hp, ?_⟩
  rw [appended_eq, List.length_flatten, List.map_map]
  apply List.sum_le_sum
  intro p _
  exact hp p

/-! ## Further properties of the loops -/

/-- Every Schedule the windows loop emits carries the snapshot it was given. -/
theorem windowsEmit_photographer (p g : Photographer) (D : Int) (ws : List TimeSlot) :
    ∀ s ∈ windowsEmit p g D ws, s.Photographer = g := by
  induction ws with
  | nil => simp [windowsEmit_nil]
  | cons w rest ih =>
    rw [windowsEmit_cons]
    split_ifs with h1 h2
    · exact ih
    · rcases bookingsLoop_cases p g w.Starts w.Ends D p.Bookings 0 with ⟨_, h⟩ | ⟨_, t, h⟩
      · simp [h]
      · intro s hs
        rw [h, List.mem_singleton] at hs
        rw [hs]
    · exact ih

/-- A window list yields at most one Schedule. -/
theorem windowsEmit_length_le_one (p g : Photographer) (D : Int) (ws : List TimeSlot) :
    (windowsEmit p g D ws).length ≤ 1 := by
  induction ws with
  | nil => simp [windowsEmit_nil]
  | cons w rest ih =>
    rw [windowsEmit_cons]
    split_ifs with h1 h2
    · exact ih
    · rcases bookingsLoop_cases p g w.Starts w.Ends D p.Bookings 0 with ⟨_, h⟩ | ⟨_, t, h⟩ <;>
        simp [h]
    · exact ih

/-- Windows that follow a list of windows which emits are not examined. -/
theorem windowsEmit_append (p g : Photographer) (D : Int) (ws1 ws2 : List TimeSlot) :
    windowsEmit p g D (ws1 ++ ws2) =
      if windowsEmit p g D ws1 = [] then windowsEmit p g D ws2 else windowsEmit p g D ws1 := by
  induction ws1 with
  | nil => simp [windowsEmit_nil]
  | cons w rest ih =>
    rw [List.cons_append, windowsEmit_cons, windowsEmit_cons, ih]
    by_cases h1 : D > timeDiffMinutes w.Starts w.Ends
    · simp only [if_pos h1]
    · simp only [if_neg h1]
      rcases bookingsLoop_cases p g w.Starts w.Ends D p.Bookings 0 with ⟨hb, _⟩ | ⟨hb, t, h⟩
      · simp [hb]
      · simp [hb, h]

/-- The single window of a photographer: passed over when shorter than the duration,
otherwise what the bookings loop, entered at index 0, emits. -/
theorem candidatesOf_single (id name : String) (w : TimeSlot) (bs : List TimeSlot) (D : Int) :
    candidatesOf (Photographer.mk id name [w] bs) D =
      if D > timeDiffMinutes w.Starts w.Ends then []
      else bookingsEmit (Photographer.mk id name [w] bs) (Photographer.mk id name [] [])
        w.Starts w.Ends D 0 bs := by
  rw [candidatesOf_eq, windowsEmit_cons, windowsEmit_nil]
  split_ifs with h1 h2
  · rfl
  · rfl
  · simp only [Bool.not_eq_true] at h2
    exact (bookingsEmit_of_not_break _ _ _ _ D _ 0 h2).symm

/-! ## Bookings that are not the last -/

theorem sameButInnerEnds_length :
    ∀ bs bs2 : List TimeSlot, sameButInnerEnds bs bs2 → bs.length = bs2.length := by
  intro bs
  induction bs with
  | nil => intro bs2 h; cases bs2 <;> simp [sameButInnerEnds] at h ⊢
  | cons a rest ih =>
    intro bs2 h
    cases bs2 with
    | nil => cases rest <;> simp [sameButInnerEnds] at h
    | cons b rest2 =>
      cases rest with
      | nil => cases rest2 <;> simp [sameButInnerEnds] at h ⊢
      | cons a2 as =>
        cases rest2 with
        | nil => simp [sameButInnerEnds] at h
        | cons b2 bs3 =>
          simp only [sameButInnerEnds] at h
          have := ih (b2 :: bs3) h.2.2
          simp only [List.length_cons] at this ⊢
          omega

/-- One step of the bookings loop at a booking that is not the last of the list: the
trailing-gap test is not made and the booking's `Ends` is not read. -/
theorem bookingsLoop_not_last (p g : Photographer) (s e : Int) (D : Int) (i : Nat)
    (b : TimeSlot) (rest : List TimeSlot) (ps : Photographers)
    (hi : (i : Int) ≠ (p.Bookings.length : Int) - 1) :
    bookingsLoop p g s e D i (b :: rest) ps =
      if Time.After b.Starts e ∧ timeDiffMinutes s e ≥ D then
        (addAvailableTimeSlot ps g s D, true)
      else if Time.Before b.Starts e then
        if i = 0 then
          if timeDiffMinutes s b.Starts ≥ D then (addAvailableTimeSlot ps g s D, true)
          else bookingsLoop p g s e D (i + 1) rest ps
        else
          if timeDiffMinutes zeroTime b.Starts ≥ D then
            (addAvailableTimeSlot ps g zeroTime D, true)
          else bookingsLoop p g s e D (i + 1) rest ps
      else bookingsLoop p g s e D (i + 1) rest ps := by
  simp only [bookingsLoop, if_neg hi]

/-- The bookings loop gives the same result on two booking lists that differ at most in
the `Ends` of bookings that are not the last. -/
theorem bookingsLoop_inner_ends (p q g : Photographer) (s e : Int) (D : Int)
    (hlen : p.Bookings.length = q.Bookings.length) :
    ∀ bs bs2 : List TimeSlot, sameButInnerEnds bs bs2 →
      ∀ (i : Nat) (ps : Photographers), i + bs.length = p.Bookings.length →
        bookingsLoop p g s e D i bs ps = bookingsLoop q g s e D i bs2 ps := by
  intro bs
  induction bs with
  | nil =>
    intro bs2 h i ps _
    cases bs2 <;> simp [sameButInnerEnds] at h
    simp [bookingsLoop]
  | cons a rest ih =>
    intro bs2 h i ps hi
    cases bs2 with
    | nil => cases rest <;> simp [sameButInnerEnds] at h
    | cons b rest2 =>
      cases rest with
      | nil =>
        cases rest2 with
        | nil =>
          simp only [sameButInnerEnds] at h
          subst h
          simp only [bookingsLoop, hlen]
        | cons b2 bs3 => simp [sameButInnerEnds] at h
      | cons a2 as =>
        cases rest2 with
        | nil => simp [sameButInnerEnds] at h
        | cons b2 bs3 =>
          simp only [sameButInnerEnds] at h
          simp only [List.length_cons] at hi
          have hp : (i : Int) ≠ (p.Bookings.length : Int) - 1 := by omega
          have hq : (i : Int) ≠ (q.Bookings.length : Int) - 1 := by omega
          rw [bookingsLoop_not_last p g s e D i a (a2 :: as) ps hp,
            bookingsLoop_not_last q g s e D i b (b2 :: bs3) ps hq,
            ih (b2 :: bs3) h.2.2 (i + 1) ps (by simp only [List.length_cons]; omega), h.2.1]

/-- The candidates of a photographer do not depend on the `Ends` of bookings that are
not the last of the booking list. -/
theorem candidatesOf_inner_ends (p q : Photographer) (h : samePhotographerButInnerEnds p q)
    (D : Int) : candidatesOf p D = candidatesOf q D := by
  obtain ⟨hid, hname, hav, hbk⟩ := h
  have hlen := sameButInnerEnds_length _ _ hbk
  rw [candidatesOf_eq, candidatesOf_eq, hid, hname, hav]
  generalize Photographer.mk q.Id q.Name [] [] = g
  generalize q.Availabilities = ws
  induction ws with
  | nil => simp [windowsEmit_nil]
  | cons w rest ih =>
    rw [windowsEmit_cons, windowsEmit_cons, ih]
    simp only [bookingsBreak, bookingsEmit,
      bookingsLoop_inner_ends p q g w.Starts w.Ends D hlen p.Bookings q.Bookings hbk 0
        (Photographers.mk [] []) (by simp)]

/-! ## Sign, bounds and monotonicity of `timeDiffMinutes` -/

/-- No difference of two instants is below -153722867 minutes. -/
theorem timeDiffMinutes_ge (s e : Int) : (-153722867 : Int) ≤ timeDiffMinutes s e := by
  have hb := Time.Sub_bounds e s
  unfold timeDiffMinutes Duration.MinutesInt
  split_ifs with h
  · omega
  · have := minutesTruncNat_le (-Time.Sub e s).toNat (by omega)
    omega

/-- The difference to an instant that is not later is not positive. -/
theorem timeDiffMinutes_nonpos (s e : Int) (h : e ≤ s) : timeDiffMinutes s e ≤ 0 := by
  have hb : Time.Sub e s ≤ 0 := by
    simp only [Time.Sub, maxDuration, minDuration]
    split_ifs <;> omega
  unfold timeDiffMinutes Duration.MinutesInt
  split_ifs with h0
  · have h1 : Time.Sub e s = 0 := by omega
    rw [h1]
    decide
  · omega

theorem roundNearestEven_ge (a b : Nat) : a / b ≤ roundNearestEven a b := by
  unfold roundNearestEven
  split_ifs <;> omega

theorem roundNearestEven_le_succ (a b : Nat) : roundNearestEven a b ≤ a / b + 1 := by
  unfold roundNearestEven
  split_ifs <;> omega

theorem roundNearestEven_mono (a a' b : Nat) (h : a ≤ a') :
    roundNearestEven a b ≤ roundNearestEven a' b := by
  have hq : a / b ≤ a' / b := Nat.div_le_div_right h
  rcases Nat.lt_or_ge (a / b) (a' / b) with hlt | hge
  · have h1 := roundNearestEven_le_succ a b
    have h2 := roundNearestEven_ge a' b
    omega
  · have heq : a / b = a' / b := by omega
    have e1 : b * (a / b) + a % b = a := Nat.div_add_mod a b
    have e2 : b * (a' / b) + a' % b = a' := Nat.div_add_mod a' b
    rw [heq] at e1
    have hr : a % b ≤ a' % b := by omega
    unfold roundNearestEven
    rw [heq]
    split_ifs <;> omega

theorem roundNearestEven_mul_right (a b : Nat) (hb : 0 < b) :
    roundNearestEven (a * b) b = a := by
  unfold roundNearestEven
  simp [Nat.mul_mod_left, Nat.mul_div_cancel _ hb, hb]

theorem roundNearestEven_scale (a b c : Nat) (hc : 0 < c) :
    roundNearestEven (a * c) (b * c) = roundNearestEven a b := by
  unfold roundNearestEven
  rw [Nat.mul_div_mul_right _ _ hc, Nat.mul_mod_mul_right]
  have e1 : 2 * (a % b * c) < b * c ↔ 2 * (a % b) < b := by
    rw [← mul_assoc]; exact Nat.mul_lt_mul_right hc
  have e2 : b * c < 2 * (a % b * c) ↔ b < 2 * (a % b) := by
    rw [← mul_assoc]; exact Nat.mul_lt_mul_right hc
  simp only [e1, e2]

/-- The binary exponent is determined by the two powers of two that enclose the number. -/
theorem ilog2_unique (n e : Nat) (h1 : 2 ^ e ≤ n) (h2 : n < 2 ^ (e + 1)) : ilog2 n = e := by
  have hn : n ≠ 0 := by
    have := Nat.two_pow_pos e
    omega
  have l1 := two_pow_ilog2_le n hn
  have l2 := lt_two_pow_ilog2 n
  have a1 : ilog2 n < e + 1 := by
    by_contra hc
    have : 2 ^ (e + 1) ≤ 2 ^ ilog2 n := Nat.pow_le_pow_right (by norm_num) (by omega)
    omega
  have a2 : e < ilog2 n + 1 := by
    by_contra hc
    have : 2 ^ (ilog2 n + 1) ≤ 2 ^ e := Nat.pow_le_pow_right (by norm_num) (by omega)
    omega
  omega

theorem ilog2_mul_two_pow (A k : Nat) (hA : A ≠ 0) : ilog2 (A * 2 ^ k) = ilog2 A + k := by
  apply ilog2_unique
  · rw [pow_add]
    exact Nat.mul_le_mul_right _ (two_pow_ilog2_le A hA)
  · have := lt_two_pow_ilog2 A
    have e : 2 ^ (ilog2 A + k + 1) = 2 ^ (ilog2 A + 1) * 2 ^ k := by
      rw [← pow_add]; congr 1; omega
    rw [e]
    exact Nat.mul_lt_mul_of_pos_right this (Nat.two_pow_pos k)

theorem ilog2_mono (A B : Nat) (hA : A ≠ 0) (h : A ≤ B) : ilog2 A ≤ ilog2 B := by
  have l1 := two_pow_ilog2_le A hA
  have l2 := lt_two_pow_ilog2 B
  by_contra hc
  have : 2 ^ (ilog2 B + 1) ≤ 2 ^ ilog2 A := Nat.pow_le_pow_right (by norm_num) (by omega)
  omega

theorem round53_zero : round53 0 = 0 := by decide

theorem round53_scale (A k : Nat) : round53 (A * 2 ^ k) = round53 A * 2 ^ k := by
  by_cases hA : A = 0
  · subst hA; simp [round53_zero]
  · unfold round53
    rw [ilog2_mul_two_pow A k hA]
    by_cases h52 : 52 ≤ ilog2 A
    · have e : ilog2 A + k - 52 = (ilog2 A - 52) + k := by omega
      rw [e, pow_add, roundNearestEven_scale _ _ _ (Nat.two_pow_pos k), mul_assoc]
    · have e0 : ilog2 A - 52 = 0 := by omega
      have hk : ilog2 A + k - 52 ≤ k := by omega
      have e1 : A * 2 ^ k = A * 2 ^ (k - (ilog2 A + k - 52)) * 2 ^ (ilog2 A + k - 52) := by
        rw [mul_assoc, ← pow_add, Nat.sub_add_cancel hk]
      rw [e0]
      conv_lhs => rw [e1]
      rw [roundNearestEven_mul_right _ _ (Nat.two_pow_pos _), ← e1]
      simp [roundNearestEven, Nat.mod_one]

theorem round53_mono (A B : Nat) (h : A ≤ B) : round53 A ≤ round53 B := by
  by_cases hA : A = 0
  · subst hA; simp [round53_zero]
  · have hB : B ≠ 0 := by omega
    have hab := ilog2_mono A B hA h
    by_cases hs : ilog2 A - 52 = ilog2 B - 52
    · unfold round53
      rw [hs]
      exact Nat.mul_le_mul_right _ (roundNearestEven_mono _ _ _ h)
    · have hlt : ilog2 A + 1 ≤ ilog2 B := by omega
      have hb52 : 52 ≤ ilog2 B := by omega
      -- the rounding of `A` stays within the binade of `A`
      have up : round53 A ≤ 2 ^ (ilog2 A + 1) := by
        unfold round53
        have hsa : ilog2 A - 52 ≤ ilog2 A + 1 := by omega
        have hpow : 2 ^ (ilog2 A + 1) =
            2 ^ (ilog2 A + 1 - (ilog2 A - 52)) * 2 ^ (ilog2 A - 52) := by
          rw [← pow_add, Nat.sub_add_cancel hsa]
        have hdiv : A / 2 ^ (ilog2 A - 52) < 2 ^ (ilog2 A + 1 - (ilog2 A - 52)) := by
          rw [Nat.div_lt_iff_lt_mul (Nat.two_pow_pos _), ← hpow]
          exact lt_two_pow_ilog2 A
        have := roundNearestEven_le_succ A (2 ^ (ilog2 A - 52))
        rw [hpow]
        exact Nat.mul_le_mul_right _ (by omega)
      have low : 2 ^ ilog2 B ≤ round53 B := by
        unfold round53
        have hpow : 2 ^ ilog2 B = 2 ^ 52 * 2 ^ (ilog2 B - 52) := by
          rw [← pow_add]; congr 1; omega
        have hdiv : 2 ^ 52 ≤ B / 2 ^ (ilog2 B - 52) := by
          rw [Nat.le_div_iff_mul_le (Nat.two_pow_pos _), ← hpow]
          exact two_pow_ilog2_le B hB
        have := roundNearestEven_ge B (2 ^ (ilog2 B - 52))
        rw [hpow]
        exact Nat.mul_le_mul_right _ (by omega)
      have mid : 2 ^ (ilog2 A + 1) ≤ 2 ^ ilog2 B := Nat.pow_le_pow_right (by norm_num) hlt
      omega

/-- The quotient of two integers by `60000000000`: the exponent chosen by `float64Div`
puts the scaled quotient in `[2^52, 2^53)`. -/
theorem float64Div_binade (n : Nat) (hn : n ≠ 0) (hlt : n < 60000000000) :
    2 ^ 52 * 60000000000 ≤ n * 2 ^ (float64Div n 60000000000).2 ∧
    n * 2 ^ (float64Div n 60000000000).2 < 2 ^ 53 * 60000000000 ∧
    (float64Div n 60000000000).1 =
      roundNearestEven (n * 2 ^ (float64Div n 60000000000).2) 60000000000 := by
  have hb : ilog2 60000000000 = 35 := by rfl
  have hle := two_pow_ilog2_le n hn
  have hup := lt_two_pow_ilog2 n
  have h36 : ilog2 n < 36 := by
    by_contra hc
    have : 2 ^ 36 ≤ 2 ^ ilog2 n := Nat.pow_le_pow_right (by norm_num) (by omega)
    omega
  have e87 : 2 ^ ilog2 n * 2 ^ (87 - ilog2 n) = 2 ^ 87 := by
    rw [← pow_add]; congr 1; omega
  have e88 : 2 ^ (ilog2 n + 1) * 2 ^ (87 - ilog2 n) = 2 ^ 88 := by
    rw [← pow_add]; congr 1; omega
  have l1 : 2 ^ 87 ≤ n * 2 ^ (87 - ilog2 n) := by
    rw [← e87]; exact Nat.mul_le_mul_right _ hle
  have l2 : n * 2 ^ (87 - ilog2 n) < 2 ^ 88 := by
    rw [← e88]; exact Nat.mul_lt_mul_of_pos_right hup (Nat.two_pow_pos _)
  have e : n * 2 ^ (87 - ilog2 n + 1) = 2 * (n * 2 ^ (87 - ilog2 n)) := by
    rw [pow_succ]; ring
  simp only [float64Div, if_neg hn, hb, Nat.reduceAdd]
  split_ifs with hc
  · refine ⟨hc, ?_, trivial⟩
    norm_num at l1 l2 hc ⊢
    omega
  · simp only [e]
    refine ⟨?_, ?_, trivial⟩
    · norm_num at l1 l2 hc ⊢
      omega
    · norm_num at l1 l2 hc ⊢
      omega

/-- The first rounding of `Minutes`, the quotient by `60 * 1e9`, is monotone. -/
theorem float64Div_mono (n1 n2 : Nat) (h1 : n1 ≠ 0) (h12 : n1 ≤ n2) (h2 : n2 < 60000000000) :
    (float64Div n2 60000000000).2 ≤ (float64Div n1 60000000000).2 ∧
    (float64Div n1 60000000000).1 ≤
      (float64Div n2 60000000000).1 *
        2 ^ ((float64Div n1 60000000000).2 - (float64Div n2 60000000000).2) := by
  obtain ⟨a1, b1, c1⟩ := float64Div_binade n1 h1 (by omega)
  obtain ⟨a2, b2, c2⟩ := float64Div_binade n2 (by omega) h2
  rw [c1, c2]
  generalize (float64Div n1 60000000000).2 = j1 at *
  generalize (float64Div n2 60000000000).2 = j2 at *
  have hj : j2 ≤ j1 := by
    by_contra hc
    have hp : 2 ^ (j1 + 1) ≤ 2 ^ j2 := Nat.pow_le_pow_right (by norm_num) (by omega)
    have s1 : n1 * 2 ^ (j1 + 1) ≤ n2 * 2 ^ j2 := Nat.mul_le_mul h12 hp
    rw [pow_succ] at s1
    have e : n1 * (2 ^ j1 * 2) = 2 * (n1 * 2 ^ j1) := by ring
    rw [e] at s1
    norm_num at a1 b2
    omega
  refine ⟨hj, ?_⟩
  rcases Nat.eq_or_lt_of_le hj with heq | hlt
  · subst heq
    simp only [Nat.sub_self, pow_zero, mul_one]
    exact roundNearestEven_mono _ _ _ (Nat.mul_le_mul_right _ h12)
  · have k1 : roundNearestEven (n1 * 2 ^ j1) 60000000000 ≤ 2 ^ 53 := by
      have hd : n1 * 2 ^ j1 / 60000000000 < 2 ^ 53 := by
        rw [Nat.div_lt_iff_lt_mul (by norm_num)]; exact b1
      have := roundNearestEven_le_succ (n1 * 2 ^ j1) 60000000000
      omega
    have k2 : 2 ^ 52 ≤ roundNearestEven (n2 * 2 ^ j2) 60000000000 := by
      have hd : 2 ^ 52 ≤ n2 * 2 ^ j2 / 60000000000 := by
        rw [Nat.le_div_iff_mul_le (by norm_num)]; exact a2
      have := roundNearestEven_ge (n2 * 2 ^ j2) 60000000000
      omega
    have hp : 2 ^ 1 ≤ 2 ^ (j1 - j2) := Nat.pow_le_pow_right (by norm_num) (by omega)
    calc roundNearestEven (n1 * 2 ^ j1) 60000000000 ≤ 2 ^ 53 := k1
      _ = 2 ^ 52 * 2 ^ 1 := by norm_num
      _ ≤ roundNearestEven (n2 * 2 ^ j2) 60000000000 * 2 ^ (j1 - j2) := Nat.mul_le_mul k2 hp

/-- The quotient computed by `float64Div` for a remainder of minutes does not exceed 1. -/
theorem float64Div_le_one (n : Nat) (hlt : n < 60000000000) :
    (float64Div n 60000000000).1 ≤ 2 ^ (float64Div n 60000000000).2 := by
  by_cases hn : n = 0
  · subst hn; simp [float64Div]
  · obtain ⟨_, _, c⟩ := float64Div_binade n hn hlt
    rw [c]
    generalize (float64Div n 60000000000).2 = j
    have hd : n * 2 ^ j / 60000000000 < 2 ^ j := by
      rw [Nat.div_lt_iff_lt_mul (by norm_num)]
      have : n * 2 ^ j < 60000000000 * 2 ^ j :=
        Nat.mul_lt_mul_of_pos_right hlt (Nat.two_pow_pos j)
      rw [mul_comm (2 ^ j)]
      exact this
    have := roundNearestEven_le_succ (n * 2 ^ j) 60000000000
    omega

/-- The second rounding of `Minutes`, the sum, at a common exponent. -/
theorem minutesSum_scale (m K j k : Nat) :
    round53 (m * 2 ^ (j + k) + K * 2 ^ k) / 2 ^ (j + k) = round53 (m * 2 ^ j + K) / 2 ^ j := by
  have e : m * 2 ^ (j + k) + K * 2 ^ k = (m * 2 ^ j + K) * 2 ^ k := by
    rw [pow_add]; ring
  rw [e, round53_scale, pow_add, Nat.mul_div_mul_right _ _ (Nat.two_pow_pos k)]

theorem minutesSum_mono (m K K' j : Nat) (h : K ≤ K') :
    round53 (m * 2 ^ j + K) / 2 ^ j ≤ round53 (m * 2 ^ j + K') / 2 ^ j :=
  Nat.div_le_div_right (round53_mono _ _ (by omega))

/-- The minutes of a duration are at least the rounding of its whole minutes. -/
theorem minutesTruncNat_lower (d : Nat) :
    round53 (d / 60000000000) ≤ minutesTruncNat d := by
  unfold minutesTruncNat
  simp only []
  generalize (float64Div (d % 60000000000) 60000000000).2 = j
  generalize (float64Div (d % 60000000000) 60000000000).1 = K
  have h0 := minutesSum_scale (d / 60000000000) 0 0 j
  simp only [zero_add, zero_mul, add_zero, pow_zero, mul_one, Nat.div_one] at h0
  rw [← h0]
  exact minutesSum_mono _ 0 K j (Nat.zero_le K)

/-- The minutes of a duration are at most the rounding of its whole minutes plus one. -/
theorem minutesTruncNat_upper (d : Nat) :
    minutesTruncNat d ≤ round53 (d / 60000000000 + 1) := by
  have hK := float64Div_le_one (d % 60000000000) (Nat.mod_lt d (by norm_num))
  unfold minutesTruncNat
  simp only []
  generalize (float64Div (d % 60000000000) 60000000000).2 = j at hK ⊢
  generalize (float64Div (d % 60000000000) 60000000000).1 = K at hK ⊢
  have h1 := minutesSum_mono (d / 60000000000) K (2 ^ j) j hK
  have e : d / 60000000000 * 2 ^ j + 2 ^ j = (d / 60000000000 + 1) * 2 ^ j := by ring
  rw [e, round53_scale, Nat.mul_div_cancel _ (Nat.two_pow_pos j)] at h1
  exact h1

/-- The conversion `int(d.Minutes())` is monotone on non-negative durations. -/
theorem minutesTruncNat_mono (d1 d2 : Nat) (h : d1 ≤ d2) :
    minutesTruncNat d1 ≤ minutesTruncNat d2 := by
  have hm : d1 / 60000000000 ≤ d2 / 60000000000 := Nat.div_le_div_right h
  rcases Nat.lt_or_ge (d1 / 60000000000) (d2 / 60000000000) with hlt | hge
  · calc minutesTruncNat d1 ≤ round53 (d1 / 60000000000 + 1) := minutesTruncNat_upper d1
      _ ≤ round53 (d2 / 60000000000) := round53_mono _ _ hlt
      _ ≤ minutesTruncNat d2 := minutesTruncNat_lower d2
  · have heq : d1 / 60000000000 = d2 / 60000000000 := by omega
    have e1 : 60000000000 * (d1 / 60000000000) + d1 % 60000000000 = d1 := Nat.div_add_mod d1 _
    have e2 : 60000000000 * (d2 / 60000000000) + d2 % 60000000000 = d2 := Nat.div_add_mod d2 _
    have hn : d1 % 60000000000 ≤ d2 % 60000000000 := by omega
    have hn2 : d2 % 60000000000 < 60000000000 := Nat.mod_lt d2 (by norm_num)
    by_cases h0 : d1 % 60000000000 = 0
    · have hd1 : minutesTruncNat d1 = round53 (d1 / 60000000000) := by
        simp [minutesTruncNat, h0, float64Div]
      rw [hd1, heq]
      exact minutesTruncNat_lower d2
    · obtain ⟨hj, hK⟩ := float64Div_mono _ _ h0 hn hn2
      unfold minutesTruncNat
      simp only []
      rw [heq]
      generalize (float64Div (d1 % 60000000000) 60000000000).2 = j1 at hj hK ⊢
      generalize (float64Div (d1 % 60000000000) 60000000000).1 = K1 at hK ⊢
      generalize (float64Div (d2 % 60000000000) 60000000000).2 = j2 at hj hK ⊢
      generalize (float64Div (d2 % 60000000000) 60000000000).1 = K2 at hK ⊢
      have hs := minutesSum_scale (d2 / 60000000000) K2 j2 (j1 - j2)
      rw [Nat.add_sub_cancel' hj] at hs
      rw [← hs]
      exact minutesSum_mono _ _ _ j1 hK

theorem Duration.MinutesInt_mono (d1 d2 : Int) (h : d1 ≤ d2) :
    Duration.MinutesInt d1 ≤ Duration.MinutesInt d2 := by
  unfold Duration.MinutesInt
  split_ifs with h1 h2 h2
  · have := minutesTruncNat_mono d1.toNat d2.toNat (by omega)
    omega
  · omega
  · omega
  · have := minutesTruncNat_mono (-d2).toNat (-d1).toNat (by omega)
    omega

theorem Time.Sub_mono (t1 t2 u : Int) (h : t1 ≤ t2) : Time.Sub t1 u ≤ Time.Sub t2 u := by
  simp only [Time.Sub, maxDuration, minDuration]
  split_ifs <;> omega

/-- A later end gives at least as many minutes: `timeDiffMinutes` is monotone in its
second argument. -/
theorem timeDiffMinutes_mono (s e1 e2 : Int) (h : e1 ≤ e2) :
    timeDiffMinutes s e1 ≤ timeDiffMinutes s e2 :=
  Duration.MinutesInt_mono _ _ (Time.Sub_mono e1 e2 s h)

theorem round53_small (k : Nat) (hk : k < 9007199254740992) : round53 k = k := by
  have h52 : ilog2 k - 52 = 0 := by
    by_cases h0 : k = 0
    · subst h0; rfl
    · have := two_pow_ilog2_le k h0
      by_contra hc
      have : 2 ^ 53 ≤ 2 ^ ilog2 k := Nat.pow_le_pow_right (by norm_num) (by omega)
      omega
  simp [round53, h52, roundNearestEven, Nat.mod_one]

/-- The last nanosecond of a minute is not rounded up to the next minute below 262144
minutes: there half a unit in the last place of the sum is smaller than the distance of
`59.999999999 / 60` from 1. -/
theorem minutesTruncNat_last_nanosecond (m : Nat) (hm : m < 262144) :
    minutesTruncNat (m * 60000000000 + 59999999999) = m := by
  have hdiv : (m * 60000000000 + 59999999999) / 60000000000 = m := by omega
  have hmod : (m * 60000000000 + 59999999999) % 60000000000 = 59999999999 := by omega
  have hq : float64Div 59999999999 60000000000 = (9007199254590872, 53) := by decide!
  unfold minutesTruncNat
  simp only [hdiv, hmod, hq]
  have hA : m * 2 ^ 53 + 9007199254590872 ≠ 0 := by omega
  have hlt : m * 2 ^ 53 + 9007199254590872 < 2 ^ 71 := by
    norm_num
    omega
  have hlog : ilog2 (m * 2 ^ 53 + 9007199254590872) < 71 := by
    have := two_pow_ilog2_le _ hA
    by_contra hc
    have : 2 ^ 71 ≤ 2 ^ ilog2 (m * 2 ^ 53 + 9007199254590872) :=
      Nat.pow_le_pow_right (by norm_num) (by omega)
    omega
  have hs : 2 ^ (ilog2 (m * 2 ^ 53 + 9007199254590872) - 52) ≤ 2 ^ 18 :=
    Nat.pow_le_pow_right (by norm_num) (by omega)
  obtain ⟨h1, _⟩ := round53_le (m * 2 ^ 53 + 9007199254590872)
  have hlow : m * 2 ^ 53 ≤ round53 (m * 2 ^ 53 + 9007199254590872) := by
    have := round53_mono (m * 2 ^ 53) (m * 2 ^ 53 + 9007199254590872) (by omega)
    rw [round53_scale, round53_small m (by omega)] at this
    exact this
  have hup : round53 (m * 2 ^ 53 + 9007199254590872) < (m + 1) * 2 ^ 53 := by
    norm_num at hs h1 ⊢
    omega
  apply Nat.le_antisymm
  · exact Nat.lt_succ_iff.1 ((Nat.div_lt_iff_lt_mul (Nat.two_pow_pos 53)).2 hup)
  · exact (Nat.le_div_iff_mul_le (Nat.two_pow_pos 53)).2 hlow

/-- Below 262144 minutes the conversion `int(d.Minutes())` is the whole number of
minutes of the duration. -/
theorem minutesTruncNat_exact (d : Nat) (hd : d < 262144 * 60000000000) :
    minutesTruncNat d = d / 60000000000 := by
  have hm : d / 60000000000 < 262144 := by omega
  apply Nat.le_antisymm
  · have h1 := minutesTruncNat_mono d (d / 60000000000 * 60000000000 + 59999999999) (by omega)
    rw [minutesTruncNat_last_nanosecond _ hm] at h1
    exact h1
  · have := minutesTruncNat_lower d
    rw [round53_small _ (by omega)] at this
    exact this

/-- A gap of less than `D` minutes, `0 < D ≤ 262144`, is measured as less than `D`. -/
theorem timeDiffMinutes_lt_of_gap (s e D : Int) (hD : 0 < D) (hD2 : D ≤ 262144)
    (h : e - s < Minute * D) : timeDiffMinutes s e < D := by
  simp only [Minute] at h
  by_cases hneg : e ≤ s
  · have := timeDiffMinutes_nonpos s e hneg
    omega
  · have hsub : Time.Sub e s = e - s := Time.Sub_exact e s (by omega) (by omega)
    unfold timeDiffMinutes Duration.MinutesInt
    rw [hsub, if_pos (by omega), minutesTruncNat_exact _ (by omega)]
    omega

/-- A gap of at least `D` minutes, `D ≤ 153722867`, is measured as at least `D`. -/
theorem timeDiffMinutes_ge_of_gap (s e D : Int) (hD : -153722867 ≤ D) (hD2 : D ≤ 153722867)
    (h : e - s ≥ Minute * D) : timeDiffMinutes s e ≥ D := by
  simp only [Minute] at h
  have h1 := timeDiffMinutes_mono s (s + 60000000000 * D) e (by omega)
  rw [timeDiffMinutes_add s D hD hD2] at h1
  exact h1

/-! ## The claims, continued -/

/-- C11. Starting from an empty result list, the result on the roster `ps1 ++ ps2` is the
result on `ps1` followed by the result on `ps2`, for all photographer lists and every `D`.
In particular, at `D = 90`, Ann (window 09:00-12:00, booking 10:00-10:30) followed by Bob
(window 13:00-17:00, booking 13:00-13:30) give two Schedules, Ann's first. -/
theorem c11_results_in_photographer_order :
    (∀ (ps1 ps2 : List Photographer) (D : Int),
      (availableTimeSlotsForBooking (Photographers.mk (ps1 ++ ps2) []) D).2 =
        (availableTimeSlotsForBooking (Photographers.mk ps1 []) D).2 ++
          (availableTimeSlotsForBooking (Photographers.mk ps2 []) D).2) ∧
    (availableTimeSlotsForBooking
        (Photographers.mk
          [ann [slot 9 0 12 0] [slot 10 0 10 30], bob [slot 13 0 17 0] [slot 13 0 13 30]]
          []) 90).2 =
      [Schedule.mk annSnapshot (slot 10 30 12 0), Schedule.mk bobSnapshot (slot 13 30 15 0)] := by
  refine ⟨?_, by decide!⟩
  intro ps1 ps2 D
  simp [availableTimeSlotsForBooking_eq]

/-- C12. Every Schedule one call appends was emitted for a photographer of the roster,
and carries a snapshot with that photographer's `Id` and `Name` and with empty
`Availabilities` and `Bookings`. -/
theorem c12_snapshot_holds_id_and_name (ps : Photographers) (D : Int) :
    ∀ s ∈ appended ps D, ∃ p ∈ ps.Photographers,
      s ∈ candidatesOf p D ∧
      s.Photographer.Id = p.Id ∧ s.Photographer.Name = p.Name ∧
      s.Photographer.Availabilities = [] ∧ s.Photographer.Bookings = [] := by
  intro s hs
  rw [appended_eq] at hs
  obtain ⟨l, hl, hsl⟩ := List.mem_flatten.1 hs
  obtain ⟨p, hp, rfl⟩ := List.mem_map.1 hl
  refine ⟨p, hp, hsl, ?_⟩
  rw [candidatesOf_eq] at hsl
  rw [windowsEmit_photographer p _ D p.Availabilities s hsl]
  exact ⟨rfl, rfl, rfl, rfl⟩

/-- C12 at `D = 90` on the roster of Ann with the window 09:00-12:00 and the booking
10:00-10:30: the appended Schedule 10:30-12:00 carries Ann's `Id` and `Name` only. -/
theorem c12_snapshot_holds_id_and_name_witness :
    Schedule.mk annSnapshot (slot 10 30 12 0) ∈
      appended (Photographers.mk [ann [slot 9 0 12 0] [slot 10 0 10 30]] []) 90 ∧
    ∃ p ∈ (Photographers.mk [ann [slot 9 0 12 0] [slot 10 0 10 30]] []).Photographers,
      Schedule.mk annSnapshot (slot 10 30 12 0) ∈ candidatesOf p 90 ∧
      (Schedule.mk annSnapshot (slot 10 30 12 0)).Photographer.Id = p.Id ∧
      (Schedule.mk annSnapshot (slot 10 30 12 0)).Photographer.Name = p.Name ∧
      (Schedule.mk annSnapshot (slot 10 30 12 0)).Photographer.Availabilities = [] ∧
      (Schedule.mk annSnapshot (slot 10 30 12 0)).Photographer.Bookings = [] :=
  ⟨by decide!,
    c12_snapshot_holds_id_and_name
      (Photographers.mk [ann [slot 9 0 12 0] [slot 10 0 10 30]] []) 90
      (Schedule.mk annSnapshot (slot 10 30 12 0)) (by decide!)⟩

/-- The trailing-gap rule with gaps as the code measures them. One window of duration
at least `D` and exactly one booking `b` that starts
before the window's end: when the leading gap (window start to `b.Starts`) is shorter
than `D` minutes and the trailing gap (`b.Ends` to window end) is at least `D` minutes,
exactly one candidate is emitted, `[b.Ends, b.Ends + D minutes)`. -/
theorem trailing_gap_single_booking (id name : String) (w b : TimeSlot) (D : Int)
    (hw : timeDiffMinutes w.Starts w.Ends ≥ D) (hb : Time.Before b.Starts w.Ends)
    (hlead : timeDiffMinutes w.Starts b.Starts < D)
    (htrail : timeDiffMinutes b.Ends w.Ends ≥ D) :
    candidatesOf (Photographer.mk id name [w] [b]) D =
      [Schedule.mk (Photographer.mk id name [] [])
        (TimeSlot.mk "" b.Ends (b.Ends + Minute * D))] := by
  have h1 := timeDiffMinutes_ge w.Starts b.Starts
  have h2 := timeDiffMinutes_le b.Ends w.Ends
  have hwrap : wrapInt64 (60000000000 * D) = 60000000000 * D := by
    simpa [Minute] using wrapInt64_minutes D (by omega) (by omega)
  have hb2 : ¬ w.Ends < b.Starts := by
    have : b.Starts < w.Ends := hb
    omega
  rw [candidatesOf_single, if_neg (by omega)]
  simp [bookingsEmit, bookingsLoop, addAvailableTimeSlot, Time.Add, hwrap, Minute, hb2,
    show b.Starts < w.Ends from hb, not_le.2 hlead, htrail]

/-- The trailing-gap rule at the scenario `D = 90`, window 09:00-12:00, booking 10:00-10:30: the candidate
is 10:30-12:00, the trailing gap being exactly 90 minutes. -/
theorem trailing_gap_single_booking_scenario :
    timeDiffMinutes (slot 9 0 12 0).Starts (slot 9 0 12 0).Ends ≥ 90 ∧
    Time.Before (slot 10 0 10 30).Starts (slot 9 0 12 0).Ends ∧
    timeDiffMinutes (slot 9 0 12 0).Starts (slot 10 0 10 30).Starts < 90 ∧
    timeDiffMinutes (slot 10 0 10 30).Ends (slot 9 0 12 0).Ends = 90 ∧
    candidatesOf (Photographer.mk "p1" "Ann" [slot 9 0 12 0] [slot 10 0 10 30]) 90 =
      [Schedule.mk (Photographer.mk "p1" "Ann" [] [])
        (TimeSlot.mk "" (slot 10 0 10 30).Ends ((slot 10 0 10 30).Ends + Minute * 90))] ∧
    (slot 10 0 10 30).Ends + Minute * 90 = clock 12 0 :=
  ⟨by decide!, by decide!, by decide!, by decide!,
    trailing_gap_single_booking "p1" "Ann" (slot 9 0 12 0) (slot 10 0 10 30) 90
      (by decide!) (by decide!) (by decide!) (by decide!),
    by decide!⟩

/-- The trailing-gap rule with gaps in real time, for `0 < D ≤ 262144`: one window at
least `D` minutes long and exactly one booking `b` that starts before the window's end,
with less than `D` minutes from the window's start to `b.Starts` and at least `D` minutes
from `b.Ends` to the window's end, give exactly one candidate,
`[b.Ends, b.Ends + D minutes)`. -/
theorem trailing_gap_single_booking_of_gaps (id name : String) (w b : TimeSlot) (D : Int)
    (hD : 0 < D) (hD2 : D ≤ 262144) (hw : w.Ends - w.Starts ≥ Minute * D)
    (hb : Time.Before b.Starts w.Ends) (hlead : b.Starts - w.Starts < Minute * D)
    (htrail : w.Ends - b.Ends ≥ Minute * D) :
    candidatesOf (Photographer.mk id name [w] [b]) D =
      [Schedule.mk (Photographer.mk id name [] [])
        (TimeSlot.mk "" b.Ends (b.Ends + Minute * D))] :=
  trailing_gap_single_booking id name w b D
    (timeDiffMinutes_ge_of_gap _ _ D (by omega) (by omega) hw) hb
    (timeDiffMinutes_lt_of_gap _ _ D hD hD2 hlead)
    (timeDiffMinutes_ge_of_gap _ _ D (by omega) (by omega) htrail)

/-- C13, a defect of the code. Claim: one window of duration at least `D`, one booking
`b` that starts before the window's end, leading gap shorter than `D` minutes, trailing
gap at least `D` minutes: the one candidate is `[b.Ends, b.Ends + D minutes)`. At
`D = 262145`, with the window `longWindow` and the booking `lateBooking`, the leading gap
is one nanosecond short of `D` minutes and the trailing gap is exactly `D` minutes. The
`float64` sum in `Duration.Minutes` rounds the leading gap up to 262145 minutes, so the
code takes the leading-gap branch and emits `D` minutes at the window's start, a slot
that overlaps the booking, and not the slot after the booking. -/
theorem c13_leading_gap_rounded_up :
    longWindow.Ends - longWindow.Starts ≥ Minute * 262145 ∧
    Time.Before lateBooking.Starts longWindow.Ends ∧
    lateBooking.Starts - longWindow.Starts < Minute * 262145 ∧
    longWindow.Ends - lateBooking.Ends ≥ Minute * 262145 ∧
    timeDiffMinutes longWindow.Starts lateBooking.Starts = 262145 ∧
    candidatesOf (ann [longWindow] [lateBooking]) 262145 =
      [Schedule.mk annSnapshot
        (TimeSlot.mk "" longWindow.Starts (longWindow.Starts + Minute * 262145))] ∧
    candidatesOf (ann [longWindow] [lateBooking]) 262145 ≠
      [Schedule.mk annSnapshot
        (TimeSlot.mk "" lateBooking.Ends (lateBooking.Ends + Minute * 262145))] ∧
    TimeSlot.overlaps
      (TimeSlot.mk "" longWindow.Starts (longWindow.Starts + Minute * 262145))
      lateBooking := by
  refine ⟨by decide!, by decide!, by decide!, by decide!, by decide!, by decide!,
    by decide!, by decide!⟩

/-- C14. One window and a non-empty booking list whose first booking starts before the
window's end: when the gap from the window's start to the first booking's start is at
least `D` minutes (exactly `D` included), exactly one candidate is emitted, which starts
at the window's start and ends at `starts.Add(time.Minute * time.Duration(D))`; for
`D ≥ -153722867`, so for every positive duration, that end is the window's start plus `D`
minutes. The window is not passed over: it lasts at least as long as the gap. -/
theorem c14_leading_gap (id name : String) (w b : TimeSlot) (bs : List TimeSlot) (D : Int)
    (hb : Time.Before b.Starts w.Ends) (hgap : timeDiffMinutes w.Starts b.Starts ≥ D) :
    candidatesOf (Photographer.mk id name [w] (b :: bs)) D =
      [Schedule.mk (Photographer.mk id name [] [])
        (TimeSlot.mk "" w.Starts (Time.Add w.Starts (wrapInt64 (Minute * D))))] ∧
    (-153722867 ≤ D → Time.Add w.Starts (wrapInt64 (Minute * D)) = w.Starts + Minute * D) := by
  have hlt : b.Starts < w.Ends := hb
  have hw := timeDiffMinutes_mono w.Starts b.Starts w.Ends (by omega)
  have h2 := timeDiffMinutes_le w.Starts w.Ends
  constructor
  · rw [candidatesOf_single, if_neg (by omega)]
    have hna : ¬ w.Ends < b.Starts := by omega
    simp [bookingsEmit, bookingsLoop, addAvailableTimeSlot, hna, hlt, hgap]
  · intro hD
    rw [wrapInt64_minutes D hD (by omega)]
    simp [Time.Add, Minute]

/-- C14 at the exact fit `D = 90`, window 09:00-12:00, bookings 10:30-11:00 and
11:00-11:30: the leading gap is exactly 90 minutes and the candidate is 09:00-10:30. -/
theorem c14_leading_gap_witness :
    Time.Before (slot 10 30 11 0).Starts (slot 9 0 12 0).Ends ∧
    timeDiffMinutes (slot 9 0 12 0).Starts (slot 10 30 11 0).Starts = 90 ∧
    (candidatesOf
        (Photographer.mk "p1" "Ann" [slot 9 0 12 0] [slot 10 30 11 0, slot 11 0 11 30]) 90 =
      [Schedule.mk (Photographer.mk "p1" "Ann" [] [])
        (TimeSlot.mk "" (slot 9 0 12 0).Starts
          (Time.Add (slot 9 0 12 0).Starts (wrapInt64 (Minute * 90))))] ∧
    ((-153722867 : Int) ≤ 90 →
      Time.Add (slot 9 0 12 0).Starts (wrapInt64 (Minute * 90)) =
        (slot 9 0 12 0).Starts + Minute * 90)) ∧
    (slot 9 0 12 0).Starts + Minute * 90 = clock 10 30 :=
  ⟨by decide!, by decide!,
    c14_leading_gap "p1" "Ann" (slot 9 0 12 0) (slot 10 30 11 0) [slot 11 0 11 30] 90
      (by decide!) (by decide!),
    by decide!⟩

/-- C15. One window of duration at least `D` minutes and a non-empty booking list whose
first booking starts strictly after the window's end: exactly one candidate is emitted,
which starts at the window's start and ends at
`starts.Add(time.Minute * time.Duration(D))`; for `D ≥ -153722867`, so for every positive
duration, that end is the window's start plus `D` minutes. -/
theorem c15_booking_after_window (id name : String) (w b : TimeSlot) (bs : List TimeSlot)
    (D : Int) (hw : timeDiffMinutes w.Starts w.Ends ≥ D) (hb : Time.After b.Starts w.Ends) :
    candidatesOf (Photographer.mk id name [w] (b :: bs)) D =
      [Schedule.mk (Photographer.mk id name [] [])
        (TimeSlot.mk "" w.Starts (Time.Add w.Starts (wrapInt64 (Minute * D))))] ∧
    (-153722867 ≤ D → Time.Add w.Starts (wrapInt64 (Minute * D)) = w.Starts + Minute * D) := by
  have h2 := timeDiffMinutes_le w.Starts w.Ends
  constructor
  · rw [candidatesOf_single, if_neg (by omega)]
    simp [bookingsEmit, bookingsLoop, addAvailableTimeSlot, show w.Ends < b.Starts from hb, hw]
  · intro hD
    rw [wrapInt64_minutes D hD (by omega)]
    simp [Time.Add, Minute]

/-- C15 at `D = 90`, window 09:00-12:00, booking 13:00-13:30: the candidate is
09:00-10:30. -/
theorem c15_booking_after_window_witness :
    timeDiffMinutes (slot 9 0 12 0).Starts (slot 9 0 12 0).Ends ≥ 90 ∧
    Time.After (slot 13 0 13 30).Starts (slot 9 0 12 0).Ends ∧
    (candidatesOf (Photographer.mk "p1" "Ann" [slot 9 0 12 0] [slot 13 0 13 30]) 90 =
      [Schedule.mk (Photographer.mk "p1" "Ann" [] [])
        (TimeSlot.mk "" (slot 9 0 12 0).Starts
          (Time.Add (slot 9 0 12 0).Starts (wrapInt64 (Minute * 90))))] ∧
    ((-153722867 : Int) ≤ 90 →
      Time.Add (slot 9 0 12 0).Starts (wrapInt64 (Minute * 90)) =
        (slot 9 0 12 0).Starts + Minute * 90)) ∧
    (slot 9 0 12 0).Starts + Minute * 90 = clock 10 30 :=
  ⟨by decide!, by decide!,
    c15_booking_after_window "p1" "Ann" (slot 9 0 12 0) (slot 13 0 13 30) [] 90
      (by decide!) (by decide!),
    by decide!⟩

/-- C16. For every roster state and every `D` the call leaves the list of photographers
unchanged, the Schedules held after the call are the Schedules held before followed by
the appended ones, and the returned list is the list of Schedules held after the call. -/
theorem c16_append_only_frame (ps : Photographers) (D : Int) :
    (availableTimeSlotsForBooking ps D).1.Photographers = ps.Photographers ∧
    (availableTimeSlotsForBooking ps D).1.Schedules = ps.Schedules ++ appended ps D ∧
    ((availableTimeSlotsForBooking ps D).1.Schedules.take ps.Schedules.length =
      ps.Schedules) ∧
    (availableTimeSlotsForBooking ps D).2 = (availableTimeSlotsForBooking ps D).1.Schedules := by
  simp [appended_eq, availableTimeSlotsForBooking_eq]

/-- C17. For every roster and every `D`: every photographer gets at most one Schedule,
whatever the number of windows, so one call appends at most as many Schedules as the
roster has photographers; and once a list of windows has yielded a candidate, windows
that follow it change nothing. -/
theorem c17_at_most_one_per_photographer (ps : Photographers) (D : Int) :
    (∀ p : Photographer, (candidatesOf p D).length ≤ 1) ∧
    (appended ps D).length ≤ ps.Photographers.length ∧
    (∀ (id name : String) (ws1 ws2 bs : List TimeSlot),
      candidatesOf (Photographer.mk id name ws1 bs) D ≠ [] →
      candidatesOf (Photographer.mk id name (ws1 ++ ws2) bs) D =
        candidatesOf (Photographer.mk id name ws1 bs) D) := by
  have hp : ∀ p : Photographer, (candidatesOf p D).length ≤ 1 := by
    intro p
    rw [candidatesOf_eq]
    exact windowsEmit_length_le_one p _ D p.Availabilities
  refine ⟨hp, ?_, ?_⟩
  · rw [appended_eq]
    generalize ps.Photographers = l
    induction l with
    | nil => simp
    | cons p rest ih =>
      have := hp p
      simp only [List.map_cons, List.flatten_cons, List.length_append, List.length_cons]
      omega
  · intro id name ws1 ws2 bs hne
    rw [candidatesOf_eq] at hne ⊢
    rw [candidatesOf_eq]
    simp only at hne ⊢
    rw [windowsEmit_append,
      windowsEmit_congr (Photographer.mk id name (ws1 ++ ws2) bs)
        (Photographer.mk id name ws1 bs) _ D rfl ws1, if_neg hne]

/-- C17 at `D = 90`, booking 13:00-13:30: the window 09:00-12:00 yields 09:00-10:30, and
adding the window 13:00-17:00 after it changes nothing. -/
theorem c17_at_most_one_per_photographer_witness :
    candidatesOf (Photographer.mk "p1" "Ann" [slot 9 0 12 0] [slot 13 0 13 30]) 90 ≠ [] ∧
    candidatesOf (Photographer.mk "p1" "Ann" ([slot 9 0 12 0] ++ [slot 13 0 17 0])
        [slot 13 0 13 30]) 90 =
      candidatesOf (Photographer.mk "p1" "Ann" [slot 9 0 12 0] [slot 13 0 13 30]) 90 :=
  ⟨by decide!,
    (c17_at_most_one_per_photographer (Photographers.mk [] []) 90).2.2 "p1" "Ann"
      [slot 9 0 12 0] [slot 13 0 17 0] [slot 13 0 13 30] (by decide!)⟩

/-- C18. Two rosters whose photographers differ at most in the `Ends` of bookings that
are not the last of their booking list, and which hold the same Schedules, give the same
Schedule list for every `D`. -/
theorem c18_inner_ends_not_read (ps qs : Photographers)
    (hp : List.Forall₂ samePhotographerButInnerEnds ps.Photographers qs.Photographers)
    (hs : ps.Schedules = qs.Schedules) (D : Int) :
    (availableTimeSlotsForBooking ps D).2 = (availableTimeSlotsForBooking qs D).2 := by
  have hmap : ∀ l1 l2 : List Photographer, List.Forall₂ samePhotographerButInnerEnds l1 l2 →
      (l1.map fun p => candidatesOf p D) = l2.map fun p => candidatesOf p D := by
    intro l1 l2 h
    induction h with
    | nil => rfl
    | cons h _ ih => simp only [List.map_cons, ih, candidatesOf_inner_ends _ _ h D]
  rw [availableTimeSlotsForBooking_eq, availableTimeSlotsForBooking_eq, hs, hmap _ _ hp]

/-- C18 at `D = 90`, window 09:00-13:00: the bookings 09:30-10:00, 11:00-11:15 and the
bookings 09:30-10:45, 11:00-11:15 differ in the end of the first booking only, and give
the same result. -/
theorem c18_inner_ends_not_read_witness :
    List.Forall₂ samePhotographerButInnerEnds
      (Photographers.mk [ann [slot 9 0 13 0] [slot 9 30 10 0, slot 11 0 11 15]] []).Photographers
      (Photographers.mk [ann [slot 9 0 13 0] [slot 9 30 10 45, slot 11 0 11 15]] []).Photographers ∧
    (availableTimeSlotsForBooking
      (Photographers.mk [ann [slot 9 0 13 0] [slot 9 30 10 0, slot 11 0 11 15]] []) 90).2 =
    (availableTimeSlotsForBooking
      (Photographers.mk [ann [slot 9 0 13 0] [slot 9 30 10 45, slot 11 0 11 15]] []) 90).2 :=
  ⟨List.Forall₂.cons ⟨rfl, rfl, rfl, rfl, rfl, rfl⟩ List.Forall₂.nil,
    c18_inner_ends_not_read _ _
      (List.Forall₂.cons ⟨rfl, rfl, rfl, rfl, rfl, rfl⟩ List.Forall₂.nil) rfl 90⟩

/-- C19. One window of duration at least `D > 0` and exactly one booking that starts
exactly at the window's end and does not end before it starts: no candidate is emitted. -/
theorem c19_booking_at_window_end (id name : String) (w b : TimeSlot) (D : Int)
    (hD : 0 < D) (hw : timeDiffMinutes w.Starts w.Ends ≥ D) (hb : b.Starts = w.Ends)
    (hbe : b.Starts ≤ b.Ends) :
    candidatesOf (Photographer.mk id name [w] [b]) D = [] := by
  have h1 := timeDiffMinutes_nonpos b.Ends w.Ends (by omega)
  have h2 : ¬ D ≤ timeDiffMinutes b.Ends w.Ends := by omega
  rw [candidatesOf_single, if_neg (by omega)]
  simp [bookingsEmit, bookingsLoop, hb, h2]

/-- C19 at `D = 90`, window 09:00-12:00, booking 12:00-12:30. -/
theorem c19_booking_at_window_end_witness :
    (0 : Int) < 90 ∧
    timeDiffMinutes (slot 9 0 12 0).Starts (slot 9 0 12 0).Ends ≥ 90 ∧
    (slot 12 0 12 30).Starts = (slot 9 0 12 0).Ends ∧
    (slot 12 0 12 30).Starts ≤ (slot 12 0 12 30).Ends ∧
    candidatesOf (Photographer.mk "p1" "Ann" [slot 9 0 12 0] [slot 12 0 12 30]) 90 = [] :=
  ⟨by decide, by decide!, by decide!, by decide!,
    c19_booking_at_window_end "p1" "Ann" (slot 9 0 12 0) (slot 12 0 12 30) 90
      (by decide) (by decide!) (by decide!) (by decide!)⟩

end PhotoSched
